import Mathlib

/-!
Verification development for the k2rule rule-based routing classifier.

The Rust sources are shallowly embedded: domain strings and raw payloads are
byte lists (`List Nat`, each element a `u8` value), machine integers are `Nat`
with explicit `% 2 ^ 64` (resp. `% 2 ^ 32`, `% 256`) at every wrapping
operation, and the on-disk container is modelled at the level of its parsed
sections (the `#[repr(C)]` struct serialization performed by
`BinaryRuleWriter::write` and undone by the reader's pointer casts is an
identity on the field values, so writer output is modelled as the parsed view
directly; the reader's mmap bounds checks, which always pass on writer-produced
offsets, are noted where they occur in the source).
-/

namespace K2

/-- Mirrors `Target` from src/target.rs: the three routing decisions with wire
codes Direct=0, Proxy=1, Reject=2. -/
inductive Target where
  | Direct
  | Proxy
  | Reject
deriving DecidableEq

/-- Mirrors `Target::from_u8` (src/target.rs lines 33-40): decode a byte,
`none` for values outside 0..2. -/
def Target.from_u8 (v : Nat) : Option Target :=
  match v with
  | 0 => some .Direct
  | 1 => some .Proxy
  | 2 => some .Reject
  | _ => none

/-- Mirrors `Target::as_u8` (src/target.rs lines 43-45). -/
def Target.as_u8 : Target → Nat
  | .Direct => 0
  | .Proxy => 1
  | .Reject => 2

/-- ASCII lowercase of one byte.  Rust's `str::to_lowercase` performs Unicode
case folding; on the ASCII domains this development works with, it folds
exactly the bytes 65..90 to 97..122. -/
def lowerByte (b : Nat) : Nat := if 65 ≤ b ∧ b ≤ 90 then b + 32 else b

/-- ASCII lowercase of a byte string (model of `to_lowercase` on ASCII input). -/
def lowerBytes (s : List Nat) : List Nat := s.map lowerByte

/-- Mirrors `fnv1a_hash` (src/binary/format.rs lines 242-252): FNV-1a 64-bit,
`hash ^= byte; hash = hash.wrapping_mul(PRIME)` with wrapping modelled as
`% 2 ^ 64`. -/
def fnv1a_hash (data : List Nat) : Nat :=
  data.foldl (fun h b => ((h ^^^ b) * 1099511628211) % 2 ^ 64) 14695981039346656037

/-- Mirrors `DomainExactEntry` (src/binary/format.rs lines 140-147): an
open-addressing bucket holding the FNV-1a hash and the target byte; a zero
hash marks an empty slot. -/
structure DomainExactEntry where
  hash : Nat
  target : Nat
deriving DecidableEq

/-- Mirrors `DomainSuffixEntry` (src/binary/format.rs lines 152-165).  The
source entry stores `payload_offset`/`domain_len` referencing the suffix
string in the payload heap; the model holds the referenced string itself
(the writer lays the payload out so that each entry's offset/length resolve
to exactly the suffix string it was built from). -/
structure DomainSuffixEntry where
  hash : Nat
  target : Nat
  stored : List Nat
deriving DecidableEq

/-- Mirrors `CidrV4Entry` (src/binary/format.rs lines 180-189); `network` is
the u32 value decoded from the big-endian field. -/
structure CidrV4Entry where
  network : Nat
  prefix_len : Nat
  target : Nat
deriving DecidableEq

/-- Mirrors `CidrV6Entry` (src/binary/format.rs lines 194-203); `network` is
the 16-byte address. -/
structure CidrV6Entry where
  network : List Nat
  prefix_len : Nat
  target : Nat
deriving DecidableEq

/-- Parsed view of a V1 container as read by `BinaryRuleReader`
(src/binary/reader.rs): header counts plus the decoded sections.
`exact_buckets.length` plays the role of the `exact_count` bucket count the
reader takes from `DomainIndexHeader`; `ip_count` is the header field gating
the (stubbed) exact-IP lookup; `exact_v4_ips` is the exact-IP table the
writer serializes into the IP section (entries `(ip, target byte)`), which
the reader never dereferences. -/
structure BinaryRuleReader where
  domain_count : Nat
  exact_buckets : List DomainExactEntry
  suffix_entries : List DomainSuffixEntry
  cidr_count : Nat
  cidr_v4 : List CidrV4Entry
  cidr_v6 : List CidrV6Entry
  ip_count : Nat
  exact_v4_ips : List (Nat × Nat)
deriving DecidableEq

/-- Mirrors the insertion probe of `BinaryRuleWriter::write_domain_index`
(src/binary/writer.rs lines 190-205): starting at `idx`, linear-probe up to
`fuel = bucket_count` slots, writing `(h, t)` into the first slot whose hash
is zero; indices wrap modulo `n = bucket_count`. -/
def probeInsert (buckets : List DomainExactEntry) (n idx fuel h t : Nat) :
    List DomainExactEntry :=
  match fuel with
  | 0 => buckets
  | fuel + 1 =>
    if (buckets.getD idx ⟨0, 0⟩).hash = 0 then buckets.set idx ⟨h, t⟩
    else probeInsert buckets n ((idx + 1) % n) fuel h t

/-- Mirrors the probe loop of `BinaryRuleReader::lookup_exact_domain`
(src/binary/reader.rs lines 139-164): stop with `none` on an empty slot,
decode the target on a hash hit, else continue; at most `bucket_count`
probes.  The in-file bounds check on each entry offset always passes for a
writer-produced table and is not modelled. -/
def probeLookup (buckets : List DomainExactEntry) (n idx fuel h : Nat) :
    Option Target :=
  match fuel with
  | 0 => none
  | fuel + 1 =>
    let e := buckets.getD idx ⟨0, 0⟩
    if e.hash = 0 then none
    else if e.hash = h then Target.from_u8 e.target
    else probeLookup buckets n ((idx + 1) % n) fuel h

/-- Mirrors `BinaryRuleReader::lookup_exact_domain` (src/binary/reader.rs
lines 118-165): gate on `domain_count`, then on the bucket count, then
linear-probe from `hash % bucket_count`.  Only hashes are compared; the
stored string is never verified on this path. -/
def BinaryRuleReader.lookup_exact_domain (r : BinaryRuleReader) (h : Nat) :
    Option Target :=
  if r.domain_count = 0 then none
  else
    let n := r.exact_buckets.length
    if n = 0 then none
    else probeLookup r.exact_buckets n (h % n) n h

/-- Model of Rust's `slice::binary_search_by_key` search loop (branchless
variant of the standard library): narrow `[base, base+size)` until
`size ≤ 1`, moving to the midpoint unless the probed key is greater than the
target; the caller then compares the key at the returned `base`.  The loop
runs at most `size` iterations (it halves `size` each step), so it is given
`size` as structural fuel; the fuel is never exhausted. -/
def binarySearchGo (keys : List Nat) (key : Nat) : Nat → Nat → Nat → Nat
  | base, _, 0 => base
  | base, size, fuel + 1 =>
    if size ≤ 1 then base
    else if key < keys.getD (base + size / 2) 0 then
      binarySearchGo keys key base (size - size / 2) fuel
    else
      binarySearchGo keys key (base + size / 2) (size - size / 2) fuel

/-- Entry point of the binary search model: `base = 0`, `size = len`. -/
def binarySearchBase (keys : List Nat) (key : Nat) : Nat :=
  binarySearchGo keys key 0 keys.length keys.length

/-- Mirrors `BinaryRuleReader::lookup_suffix_domain` (src/binary/reader.rs
lines 167-215): gate on `domain_count` and `suffix_count`, binary-search the
hash-sorted suffix array, and on a hash hit verify the stored string against
the candidate suffix before decoding the target.  The payload bounds check
and the UTF-8 decode always succeed for a writer-produced container and are
not modelled. -/
def BinaryRuleReader.lookup_suffix_domain (r : BinaryRuleReader) (h : Nat)
    (suffix : List Nat) : Option Target :=
  if r.domain_count = 0 then none
  else if r.suffix_entries.length = 0 then none
  else
    let keys := r.suffix_entries.map DomainSuffixEntry.hash
    let base := binarySearchBase keys h
    let e := r.suffix_entries.getD base ⟨0, 0, []⟩
    if e.hash = h then
      if e.stored = suffix then Target.from_u8 e.target else none
    else none

/-- The successive values of `current` in the suffix loop of
`BinaryRuleReader::match_domain` (src/binary/reader.rs lines 84-91):
`while let Some(pos) = current.find('.') { current = &current[pos + 1..]; … }`
yields, in order, the byte string after each dot (46 is the ASCII dot). -/
def suffixCandidates : List Nat → List (List Nat)
  | [] => []
  | b :: rest =>
    if b = 46 then rest :: suffixCandidates rest else suffixCandidates rest

/-- Mirrors `BinaryRuleReader::match_domain` (src/binary/reader.rs lines
74-94): lowercase the query, try the exact table on the full query's hash,
then try the suffix table on each after-a-dot suffix of the query in order. -/
def BinaryRuleReader.match_domain (r : BinaryRuleReader) (domain : List Nat) :
    Option Target :=
  let domain_lower := lowerBytes domain
  match r.lookup_exact_domain (fnv1a_hash domain_lower) with
  | some t => some t
  | none =>
    (suffixCandidates domain_lower).findSome?
      (fun s => r.lookup_suffix_domain (fnv1a_hash s) s)

/-- The IPv4 mask of `BinaryRuleReader::lookup_cidr_v4` (src/binary/reader.rs
lines 269-273): zero for prefix 0, else `!0u32 << (32 - prefix_len)`
truncated to 32 bits. -/
def v4Mask (prefix_len : Nat) : Nat :=
  if prefix_len = 0 then 0 else ((2 ^ 32 - 1) <<< (32 - prefix_len)) % 2 ^ 32

/-- The scan loop of `BinaryRuleReader::lookup_cidr_v4` (src/binary/reader.rs
lines 264-287): visit entries in order, keeping `(prefix_len, target)` of the
best match so far; an entry replaces the best only when it covers the address
and its prefix is strictly longer (`entry.prefix_len <= best_prefix` skips),
and an entry whose target byte fails to decode never becomes the best. -/
def lookupCidrV4Loop (ip : Nat) :
    List CidrV4Entry → Option (Nat × Target) → Option (Nat × Target)
  | [], best => best
  | e :: rest, best =>
    if (ip &&& v4Mask e.prefix_len) = (e.network &&& v4Mask e.prefix_len) then
      match best with
      | some (bp, bt) =>
        if e.prefix_len ≤ bp then lookupCidrV4Loop ip rest (some (bp, bt))
        else
          match Target.from_u8 e.target with
          | some t => lookupCidrV4Loop ip rest (some (e.prefix_len, t))
          | none => lookupCidrV4Loop ip rest (some (bp, bt))
      | none =>
        match Target.from_u8 e.target with
        | some t => lookupCidrV4Loop ip rest (some (e.prefix_len, t))
        | none => lookupCidrV4Loop ip rest none
    else lookupCidrV4Loop ip rest best

/-- Mirrors `BinaryRuleReader::lookup_cidr_v4` (src/binary/reader.rs lines
238-288): gate on `cidr_count` and `v4_count`, then scan for the most
specific match. -/
def BinaryRuleReader.lookup_cidr_v4 (r : BinaryRuleReader) (ip : Nat) :
    Option Target :=
  if r.cidr_count = 0 then none
  else if r.cidr_v4.length = 0 then none
  else (lookupCidrV4Loop ip r.cidr_v4 none).map Prod.snd

/-- Mirrors `matches_ipv6_cidr` (src/binary/reader.rs lines 340-358): compare
`prefix_len / 8` full bytes, then mask the next byte by
`0xFF << (8 - prefix_len % 8)` (a u8 shift, truncated to 8 bits). -/
def matches_ipv6_cidr (ip network : List Nat) (prefix_len : Nat) : Bool :=
  let full_bytes := prefix_len / 8
  let remaining_bits := prefix_len % 8
  if ip.take full_bytes ≠ network.take full_bytes then false
  else if remaining_bits > 0 ∧ full_bytes < 16 then
    let mask := (255 <<< (8 - remaining_bits)) % 256
    decide ((ip.getD full_bytes 0 &&& mask) = (network.getD full_bytes 0 &&& mask))
  else true

/-- The scan loop of `BinaryRuleReader::lookup_cidr_v6` (src/binary/reader.rs
lines 319-335), same best-match policy as the IPv4 loop. -/
def lookupCidrV6Loop (ip : List Nat) :
    List CidrV6Entry → Option (Nat × Target) → Option (Nat × Target)
  | [], best => best
  | e :: rest, best =>
    if matches_ipv6_cidr ip e.network e.prefix_len then
      match best with
      | some (bp, bt) =>
        if e.prefix_len ≤ bp then lookupCidrV6Loop ip rest (some (bp, bt))
        else
          match Target.from_u8 e.target with
          | some t => lookupCidrV6Loop ip rest (some (e.prefix_len, t))
          | none => lookupCidrV6Loop ip rest (some (bp, bt))
      | none =>
        match Target.from_u8 e.target with
        | some t => lookupCidrV6Loop ip rest (some (e.prefix_len, t))
        | none => lookupCidrV6Loop ip rest none
    else lookupCidrV6Loop ip rest best

/-- Mirrors `BinaryRuleReader::lookup_cidr_v6` (src/binary/reader.rs lines
290-336). -/
def BinaryRuleReader.lookup_cidr_v6 (r : BinaryRuleReader) (ip : List Nat) :
    Option Target :=
  if r.cidr_count = 0 then none
  else if r.cidr_v6.length = 0 then none
  else (lookupCidrV6Loop ip r.cidr_v6 none).map Prod.snd

/-- An IP address: a u32 value for IPv4, sixteen octets for IPv6 (model of
`std::net::IpAddr`). -/
inductive IpAddr where
  | v4 (ip : Nat)
  | v6 (octets : List Nat)
deriving DecidableEq

/-- Mirrors `BinaryRuleReader::lookup_exact_ip` (src/binary/reader.rs lines
217-229): after the `ip_count` gate the body is a `TODO` stub that returns
`None` unconditionally — the IP index is never dereferenced. -/
def BinaryRuleReader.lookup_exact_ip (r : BinaryRuleReader) (_ip : IpAddr) :
    Option Target :=
  if r.ip_count = 0 then none else none

/-- Mirrors `BinaryRuleReader::lookup_cidr` (src/binary/reader.rs lines
231-236). -/
def BinaryRuleReader.lookup_cidr (r : BinaryRuleReader) : IpAddr → Option Target
  | .v4 ip => r.lookup_cidr_v4 ip
  | .v6 octets => r.lookup_cidr_v6 octets

/-- Mirrors `BinaryRuleReader::match_ip` (src/binary/reader.rs lines 99-107):
exact-IP lookup first, then CIDR. -/
def BinaryRuleReader.match_ip (r : BinaryRuleReader) (ip : IpAddr) :
    Option Target :=
  match r.lookup_exact_ip ip with
  | some t => some t
  | none => r.lookup_cidr ip

/-- Mirrors `IntermediateRules` (src/binary/writer.rs lines 10-27), restricted
to the fields the claims exercise; suffix domains are stored without the
leading dot, as `add_domain` strips it. -/
structure IntermediateRules where
  exact_domains : List (List Nat × Target)
  suffix_domains : List (List Nat × Target)
  v4_cidrs : List (Nat × Nat × Target)
  v6_cidrs : List (List Nat × Nat × Target)
  exact_v4_ips : List (Nat × Target)

/-- The exact-domain hash table built by `write_domain_index`
(src/binary/writer.rs lines 180-209): start from `bucket_count` empty slots
and probe-insert each exact domain in list order; the writer starts its probe
at `hash % bucket_count.max(1)`. -/
def buildExactTable (n : Nat) (exact_domains : List (List Nat × Target)) :
    List DomainExactEntry :=
  exact_domains.foldl
    (fun buckets p =>
      probeInsert buckets n (fnv1a_hash p.1 % max n 1) n (fnv1a_hash p.1)
        p.2.as_u8)
    (List.replicate n ⟨0, 0⟩)

/-- Byte-lexicographic order used to model `sort_by_key` on `[u8; 16]`
network addresses. -/
def bytesLe : List Nat → List Nat → Bool
  | [], _ => true
  | _ :: _, [] => false
  | x :: xs, y :: ys => if x < y then true else if y < x then false else bytesLe xs ys

/-- Insert `x` into `acc` after every element `y` with `le y x`. -/
def insertSorted {α : Type} (le : α → α → Bool) (x : α) : List α → List α
  | [] => [x]
  | y :: ys => if le y x then y :: insertSorted le x ys else x :: y :: ys

/-- Stable sort modelling Rust's `sort_by_key` (a stable sort): elements are
inserted left to right, each landing after all earlier elements whose key is
less than or equal, so equal-keyed elements keep their original order. -/
def sortByKey {α : Type} (le : α → α → Bool) (l : List α) : List α :=
  l.foldl (fun acc x => insertSorted le x acc) []

/-- Mirrors `BinaryRuleWriter::write` (src/binary/writer.rs lines 80-153)
composed with reopening the bytes: the exact-domain hash table, the suffix
array sorted by hash, the CIDR tables sorted by network, the sorted exact-IP
table, and the header counts.  `n` is the bucket count the writer computes as
`((exact_count as f64 / 0.7) as usize).next_power_of_two().max(16)` (or 0
when there are no exact domains); the floating-point sizing is not modelled,
so the count is a parameter — for any nonempty exact list the writer's choice
satisfies `exact_domains.length ≤ n` and `16 ≤ n`, and for two exact domains
it is exactly 16. -/
def BinaryRuleWriter.write (n : Nat) (rules : IntermediateRules) :
    BinaryRuleReader :=
  { domain_count := rules.exact_domains.length + rules.suffix_domains.length
    exact_buckets := buildExactTable n rules.exact_domains
    suffix_entries :=
      sortByKey (fun a b => decide (a.hash ≤ b.hash))
        (rules.suffix_domains.map
          (fun p => DomainSuffixEntry.mk (fnv1a_hash p.1) p.2.as_u8 p.1))
    cidr_count := rules.v4_cidrs.length + rules.v6_cidrs.length
    cidr_v4 :=
      sortByKey (fun a b => decide (a.network ≤ b.network))
        (rules.v4_cidrs.map (fun c => CidrV4Entry.mk c.1 c.2.1 c.2.2.as_u8))
    cidr_v6 :=
      sortByKey (fun a b => bytesLe a.network b.network)
        (rules.v6_cidrs.map (fun c => CidrV6Entry.mk c.1 c.2.1 c.2.2.as_u8))
    ip_count := rules.exact_v4_ips.length
    exact_v4_ips :=
      sortByKey (fun a b => decide (a.1 ≤ b.1))
        (rules.exact_v4_ips.map (fun p => (p.1, p.2.as_u8))) }

/-- Mirrors `SliceType` (src/slice/format.rs lines 32-45). -/
inductive SliceType where
  | FstDomain
  | CidrV4
  | CidrV6
  | GeoIp
  | ExactIpV4
  | ExactIpV6
deriving DecidableEq

/-- Mirrors `SliceType::from_u8` (src/slice/format.rs lines 48-58). -/
def SliceType.from_u8 (value : Nat) : Option SliceType :=
  match value with
  | 1 => some .FstDomain
  | 2 => some .CidrV4
  | 3 => some .CidrV6
  | 4 => some .GeoIp
  | 5 => some .ExactIpV4
  | 6 => some .ExactIpV6
  | _ => none

/-- The decoded payload of one V2 slice.  An `fst` blob is the key set of the
finite-state-transducer set built by `fst::Set` (an external crate), modelled
as its list of keys with plain membership as `Set::contains`; `cidrV4` holds
`(network, prefix_len)` records; `cidrV6` holds 16-byte networks with prefix
lengths; `geoIp` holds 2-byte country codes; `raw` stands for bytes the
reader has no decoder for (no writer in this repository produces exact-IP
slice payloads, and `SliceReader` never interprets them). -/
inductive SliceBlob where
  | fst (keys : List (List Nat))
  | cidrV4 (entries : List (Nat × Nat))
  | cidrV6 (entries : List (List Nat × Nat))
  | geoIp (codes : List (Nat × Nat))
  | raw (bytes : List Nat)
deriving DecidableEq

/-- Mirrors `SliceEntry` (src/slice/format.rs lines 115-128) together with the
slice data its `offset`/`size` designate (the writer lays data blobs out
back-to-back at the recorded offsets, so the descriptor resolves to its own
blob).  `slice_type` and `target` are raw bytes, decoded on use. -/
structure SliceEntry where
  slice_type : Nat
  target : Nat
  blob : SliceBlob
deriving DecidableEq

/-- Mirrors `SliceEntry::get_type` (src/slice/format.rs lines 142-144). -/
def SliceEntry.get_type (e : SliceEntry) : Option SliceType :=
  SliceType.from_u8 e.slice_type

/-- Mirrors `SliceEntry::get_target` (src/slice/format.rs lines 146-148): an
undecodable target byte silently becomes `Direct`. -/
def SliceEntry.get_target (e : SliceEntry) : Target :=
  (Target.from_u8 e.target).getD .Direct

/-- Mirrors `SliceHeader` (src/slice/format.rs lines 64-81), keeping the
fields the claims exercise. -/
structure SliceHeader where
  fallback_target : Nat
deriving DecidableEq

/-- Mirrors `SliceHeader::fallback` (src/slice/format.rs lines 107-109): an
undecodable fallback byte silently becomes `Direct`. -/
def SliceHeader.fallback (h : SliceHeader) : Target :=
  (Target.from_u8 h.fallback_target).getD .Direct

/-- Parsed view of a V2 container as held by `SliceReader`
(src/slice/reader.rs lines 10-14): the header and the slice index in file
order. -/
structure SliceReader where
  header : SliceHeader
  entries : List SliceEntry
deriving DecidableEq

/-- The `Set::contains` test of the fst crate on the modelled key set. -/
def fstContains (keys : List (List Nat)) (k : List Nat) : Bool :=
  keys.contains k

/-- The dot-aligned parent suffixes probed by `match_domain_in_slice`
(src/slice/reader.rs lines 146-154): `parts = domain.split('.')`, then for
each `i` in `1..parts.len()` the candidate is `parts[i..].join(".")`. -/
def parentSuffixes (domain : List Nat) : List (List Nat) :=
  let parts := domain.splitOn 46
  ((List.range parts.length).drop 1).map
    (fun i => List.intercalate [46] (parts.drop i))

/-- Mirrors `SliceReader::match_domain_in_slice` (src/slice/reader.rs lines
124-157): probe the FST set with the reversed dot-prefixed query, then with
each reversed dot-prefixed parent suffix.  The slice bounds check and
`Set::new` decode succeed exactly when the blob is an fst key set (a
non-fst or undecodable blob yields `false`, as the source returns `false`
when `Set::new` fails). -/
def SliceReader.match_domain_in_slice (e : SliceEntry) (domain : List Nat) :
    Bool :=
  match e.blob with
  | .fst keys =>
    if fstContains keys (46 :: domain).reverse then true
    else (parentSuffixes domain).any
      (fun s => fstContains keys (46 :: s).reverse)
  | _ => false

/-- Mirrors `SliceReader::match_domain` (src/slice/reader.rs lines 67-81):
lowercase the query, visit slices in file order, skip slices whose type is
not `FstDomain`, and return the first matching slice's target. -/
def SliceReader.match_domain (r : SliceReader) (domain : List Nat) :
    Option Target :=
  let normalized := lowerBytes domain
  go r.entries normalized
where
  go : List SliceEntry → List Nat → Option Target
    | [], _ => none
    | e :: rest, normalized =>
      if e.get_type = some SliceType.FstDomain then
        if SliceReader.match_domain_in_slice e normalized then
          some e.get_target
        else go rest normalized
      else go rest normalized

/-- The V2 IPv4 mask of `match_cidr_v4_in_slice` (src/slice/reader.rs lines
174-180): `0` for prefix 0, all-ones for prefix ≥ 32, else
`!0u32 << (32 - prefix_len)`. -/
def v4MaskV2 (prefix_len : Nat) : Nat :=
  if prefix_len = 0 then 0
  else if prefix_len ≥ 32 then 2 ^ 32 - 1
  else ((2 ^ 32 - 1) <<< (32 - prefix_len)) % 2 ^ 32

/-- Mirrors `SliceReader::match_cidr_v4_in_slice` (src/slice/reader.rs lines
159-188): any-match scan over the slice's packed records (a non-cidrV4 blob
has no records in range, yielding `false`). -/
def SliceReader.match_cidr_v4_in_slice (e : SliceEntry) (ip : Nat) : Bool :=
  match e.blob with
  | .cidrV4 entries =>
    entries.any (fun c =>
      decide ((ip &&& v4MaskV2 c.2) = (c.1 &&& v4MaskV2 c.2)))
  | _ => false

/-- Mirrors `SliceReader::match_cidr_v6_in_slice` (src/slice/reader.rs lines
190-212) via `matches_ipv6_cidr` (lines 214-230, identical logic to the V1
helper modulo an extra `full_bytes > 0` guard on the byte comparison, which
does not change the result since comparing zero bytes always succeeds). -/
def SliceReader.match_cidr_v6_in_slice (e : SliceEntry) (ip : List Nat) :
    Bool :=
  match e.blob with
  | .cidrV6 entries =>
    entries.any (fun c => matches_ipv6_cidr ip c.1 c.2)
  | _ => false

/-- Mirrors `SliceReader::match_ip` (src/slice/reader.rs lines 86-104): visit
slices in file order and dispatch on `(slice type, address family)`; only the
`(CidrV4, v4)` and `(CidrV6, v6)` arms test anything — every other
combination, including the `ExactIpV4`/`ExactIpV6` slice types, falls to the
`_ => continue` arm. -/
def SliceReader.match_ip (r : SliceReader) (ip : IpAddr) : Option Target :=
  go r.entries
where
  go : List SliceEntry → Option Target
    | [] => none
    | e :: rest =>
      match e.get_type, ip with
      | some SliceType.CidrV4, .v4 v =>
        if SliceReader.match_cidr_v4_in_slice e v then some e.get_target
        else go rest
      | some SliceType.CidrV6, .v6 octets =>
        if SliceReader.match_cidr_v6_in_slice e octets then some e.get_target
        else go rest
      | _, _ => go rest

/-- The key stored by `SliceWriter::add_domain_slice` for one domain
(src/slice/writer.rs lines 36-48): lowercase, prepend a dot unless one is
already present, and reverse. -/
def domainKey (d : List Nat) : List Nat :=
  let normalized := lowerBytes d
  let with_dot := if normalized.headD 0 = 46 then normalized else 46 :: normalized
  with_dot.reverse

/-- Mirrors `SliceWriter::add_domain_slice` (src/slice/writer.rs lines
31-65): an `FstDomain` slice descriptor whose FST holds the reversed
dot-prefixed lowercased domains.  The source sorts and deduplicates the keys
before building the `fst::Set` (the crate requires sorted input); sorting and
deduplication do not change the key set's membership, which is all the
modelled `Set::contains` observes. -/
def SliceWriter.add_domain_slice (domains : List (List Nat)) (target : Target) :
    SliceEntry :=
  { slice_type := 1
    target := target.as_u8
    blob := .fst (domains.map domainKey) }

/-- State of `CachedBinaryReader` (src/binary/cached_reader.rs lines
94-105): the installed snapshot behind the `ArcSwap`, the optional result
cache (`none` when caching is disabled), and the generation counter.  The
cache holds `(query hash, cached result)` pairs. -/
structure CachedBinaryReader where
  inner : BinaryRuleReader
  cache : Option (List (Nat × Option Target))
  generation : Nat
deriving DecidableEq

/-- Mirrors `CachedBinaryReader::cache_stats().len`
(src/binary/cached_reader.rs lines 288-302): the entry count, 0 when the
cache is disabled. -/
def CachedBinaryReader.cache_len (r : CachedBinaryReader) : Nat :=
  match r.cache with
  | some c => c.length
  | none => 0

/-- Mirrors `CachedBinaryReader::reload` / `reload_from_bytes`
(src/binary/cached_reader.rs lines 167-200) as a transition on the model
state.  `build` is the result of `BinaryRuleReader::open(path)` (resp.
`from_bytes(bytes)`); on `Err` the `?` operator returns before any mutation,
and on `Ok` the code stores the new reader, increments the generation, and
clears the cache (a no-op when the cache is disabled).  The returned pair is
the state after the call and the call's result. -/
def CachedBinaryReader.reload (r : CachedBinaryReader)
    (build : Except Nat BinaryRuleReader) :
    CachedBinaryReader × Except Nat Unit :=
  match build with
  | .error e => (r, .error e)
  | .ok new_reader =>
    let r1 := { r with inner := new_reader }
    let r2 := { r1 with generation := r1.generation + 1 }
    let r3 := { r2 with cache := r2.cache.map (fun _ => []) }
    (r3, .ok ())

/-- Mirrors `BinaryHeader` (src/binary/format.rs lines 30-71), keeping the
fields `open`/`from_bytes` can observe: the magic bytes, the version, and the
section offset/size pairs. -/
structure BinaryHeader where
  magic : List Nat
  version : Nat
  domain_index_offset : Nat
  domain_index_size : Nat
  cidr_index_offset : Nat
  cidr_index_size : Nat
  geoip_index_offset : Nat
  geoip_index_size : Nat
  ip_index_offset : Nat
  ip_index_size : Nat
  payload_offset : Nat
  payload_size : Nat
deriving DecidableEq

/-- The V1 magic bytes `K2RULE\x00\x01` (src/binary/format.rs line 6). -/
def MAGIC : List Nat := [0x4B, 0x32, 0x52, 0x55, 0x4C, 0x45, 0x00, 0x01]

/-- Open errors distinguishable by `BinaryRuleReader::open`/`from_bytes`
(src/error.rs; note the source `Error` enum has no corrupt-index variant). -/
inductive OpenError where
  | InvalidHeaderSize (expected actual : Nat)
  | InvalidMagic
  | UnsupportedVersion (v : Nat)
deriving DecidableEq

/-- Mirrors `BinaryHeader::validate` (src/binary/format.rs lines 101-109):
only the magic bytes and the version are checked. -/
def BinaryHeader.validate (h : BinaryHeader) : Option OpenError :=
  if h.magic ≠ MAGIC then some .InvalidMagic
  else if h.version > 1 then some (.UnsupportedVersion h.version)
  else none

/-- Mirrors the validation performed by `BinaryRuleReader::open` and
`from_bytes` (src/binary/reader.rs lines 21-39 and 44-64) on a file of
`data_len` bytes whose first 128 bytes decode to `h`: reject when the file is
shorter than the 128-byte header, then `header().validate()`; `none` means
the reader opens successfully.  No section offset/size field is inspected. -/
def openCheck (data_len : Nat) (h : BinaryHeader) : Option OpenError :=
  if data_len < 128 then some (.InvalidHeaderSize 128 data_len)
  else h.validate

/-- Sidecar files of `RemoteRuleManager` in the cache directory
(src/remote.rs lines 117-129): `rules.k2r`, `rules.k2r.etag`,
`rules.k2r.meta`; `none` models an absent file. -/
structure RemoteFs where
  rules_file : Option (List Nat)
  etag_file : Option (List Nat)
  meta_file : Option (Option Nat × Option (List Nat))
deriving DecidableEq

/-- State of `RemoteRuleManager` (src/remote.rs lines 47-64) together with
its sidecar files: the in-memory entity tag and the file system. -/
structure RemoteRuleManager where
  etag : Option (List Nat)
  fs : RemoteFs
deriving DecidableEq

/-- The outcome of `ureq::get(url).call()` as observed by `update`
(src/remote.rs lines 170-195): a transport failure, a non-200 HTTP status
(304 included), or a 200 response carrying an optional `ETag` header and a
body. -/
inductive HttpOutcome where
  | transport
  | status (code : Nat)
  | ok (etag_header : Option (List Nat)) (body : List Nat)
deriving DecidableEq

/-- Result of `RemoteRuleManager::update` (src/remote.rs lines 168-211):
`Ok(true)` (updated), `Ok(false)` (304, no update), or an error. -/
inductive UpdateResult where
  | updated
  | notModified
  | err
deriving DecidableEq

/-- Mirrors `RemoteRuleManager::is_gzip` (src/remote.rs lines 323-325). -/
def is_gzip (data : List Nat) : Bool :=
  decide (data.length ≥ 2) && decide (data.getD 0 0 = 0x1f)
    && decide (data.getD 1 0 = 0x8b)

/-- Mirrors `RemoteRuleManager::validate_binary` (src/remote.rs lines
328-338): the body must be at least as long as the magic and start with it. -/
def validate_binary (data : List Nat) : Bool :=
  decide (data.length ≥ MAGIC.length) && decide (data.take MAGIC.length = MAGIC)

/-- Whether `CachedBinaryReader::open` succeeds on the decompressed bytes
(the reload performed at the end of `process_response`): at least 128 bytes,
V1 magic, version ≤ 1, with the version read little-endian from bytes 8..12
(src/binary/reader.rs lines 21-39). -/
def openOkBytes (data : List Nat) : Bool :=
  decide (data.length ≥ 128) && decide (data.take 8 = MAGIC)
    && decide (data.getD 8 0 + 256 * data.getD 9 0 + 65536 * data.getD 10 0
      + 16777216 * data.getD 11 0 ≤ 1)

/-- Mirrors `RemoteRuleManager::process_response` (src/remote.rs lines
265-320) on a body already read from the wire: gzip-decompress when the
two-byte magic is present (`gunzip` is the external flate2 decoder, `none`
on a corrupt stream), validate the container magic, write the temp file and
atomically rename it over `rules.k2r`, then hot-reload the renamed file.
Returns the state after the call and whether it succeeded. -/
def process_response (st : RemoteRuleManager)
    (gunzip : List Nat → Option (List Nat)) (body : List Nat) :
    RemoteRuleManager × Bool :=
  let decompressed := if is_gzip body then gunzip body else some body
  match decompressed with
  | none => (st, false)
  | some data =>
    if validate_binary data = false then (st, false)
    else
      let st1 := { st with fs := { st.fs with rules_file := some data } }
      if openOkBytes data then (st1, true) else (st1, false)

/-- Mirrors `RemoteRuleManager::update` (src/remote.rs lines 168-211) as a
transition on the model state.  A 304 status maps to `Ok(false)`; any other
non-200 status or transport failure maps to an error with the state
untouched.  On a 200 response the code first stores a present `ETag` header
both in memory and in the `rules.k2r.etag` sidecar (lines 198-201), then
runs `process_response`, and only after that success writes the metadata
sidecar with the current time `now` (lines 206-208). -/
def RemoteRuleManager.update (st : RemoteRuleManager)
    (gunzip : List Nat → Option (List Nat)) (now : Nat)
    (response : HttpOutcome) : RemoteRuleManager × UpdateResult :=
  match response with
  | .transport => (st, .err)
  | .status code => if code = 304 then (st, .notModified) else (st, .err)
  | .ok etag_header body =>
    let st1 :=
      match etag_header with
      | some new_etag =>
        { st with
          etag := some new_etag
          fs := { st.fs with etag_file := some new_etag } }
      | none => st
    match process_response st1 gunzip body with
    | (st2, false) => (st2, .err)
    | (st2, true) =>
      let st3 :=
        { st2 with fs := { st2.fs with meta_file := some (some now, st2.etag) } }
      (st3, .updated)

/-! Concrete byte strings used by the evaluation theorems. -/

/-- ASCII bytes of the domain string g-o-o-g-l-e dot c-o-m. -/
def googleBytes : List Nat := [103, 111, 111, 103, 108, 101, 46, 99, 111, 109]

/-- ASCII bytes of the domain string w-w-w dot g-o-o-g-l-e dot c-o-m. -/
def wwwGoogleBytes : List Nat :=
  [119, 119, 119, 46, 103, 111, 111, 103, 108, 101, 46, 99, 111, 109]

/-- The V1 container built by the writer from the single suffix rule
`.google.com -> Proxy` (added via `add_domain`, which strips the leading dot
and stores the rule in `suffix_domains`); with no exact domains the writer's
bucket count is 0. -/
def suffixOnlyReader : BinaryRuleReader :=
  BinaryRuleWriter.write 0 ⟨[], [(googleBytes, Target.Proxy)], [], [], []⟩

/-- ASCII bytes of c-n dot b-i-n-g dot c-o-m. -/
def cnBingBytes : List Nat := [99, 110, 46, 98, 105, 110, 103, 46, 99, 111, 109]

/-- ASCII bytes of w-w-w dot c-n dot b-i-n-g dot c-o-m. -/
def wwwCnBingBytes : List Nat :=
  [119, 119, 119, 46, 99, 110, 46, 98, 105, 110, 103, 46, 99, 111, 109]

/-- ASCII bytes of b-i-n-g dot c-o-m. -/
def bingBytes : List Nat := [98, 105, 110, 103, 46, 99, 111, 109]

/-- ASCII bytes of w-w-w dot b-i-n-g dot c-o-m. -/
def wwwBingBytes : List Nat :=
  [119, 119, 119, 46, 98, 105, 110, 103, 46, 99, 111, 109]

/-- The V2 container of the spec's ordering scenario: slice 0 holds
`cn.bing.com -> Direct`, slice 1 holds `bing.com -> Proxy` (as built by two
`add_domain_slice` calls followed by `build`, which writes the slice index in
push order). -/
def orderedSliceReader : SliceReader :=
  { header := ⟨0⟩
    entries :=
      [SliceWriter.add_domain_slice [cnBingBytes] Target.Direct,
       SliceWriter.add_domain_slice [bingBytes] Target.Proxy] }

/-- Specification companion for the CIDR claim, written from the spec's
words: among the entries whose masked network covers the address, the one
with the numerically largest prefix length, the first-encountered winning
ties.  (`e` precedes every entry of `rest`, so on a tie with the best of
`rest` the head wins.) -/
def firstLongestV4 (ip : Nat) : List CidrV4Entry → Option CidrV4Entry
  | [] => none
  | e :: rest =>
    let r := firstLongestV4 ip rest
    if (ip &&& v4Mask e.prefix_len) = (e.network &&& v4Mask e.prefix_len) then
      match r with
      | none => some e
      | some b => if b.prefix_len ≤ e.prefix_len then some e else some b
    else r

/-- Combine the best match accumulated so far with the best of the remaining
entries: the remainder wins only with a strictly longer prefix. -/
def mergeBest (best r : Option (Nat × Target)) : Option (Nat × Target) :=
  match r with
  | none => best
  | some rv =>
    match best with
    | none => some rv
    | some bv => if bv.1 < rv.1 then some rv else some bv

/-- The decoded `(prefix, target)` view of a CIDR entry. -/
def decodeEntry (e : CidrV4Entry) : Nat × Target :=
  (e.prefix_len, (Target.from_u8 e.target).getD Target.Direct)

end K2

/-- A byte at most 2 decodes to some target. -/
theorem from_u8_of_le {b : Nat} (h : b ≤ 2) :
    K2.Target.from_u8 b =
      some ((K2.Target.from_u8 b).getD K2.Target.Direct) := by
  match b, h with
  | 0, _ => rfl
  | 1, _ => rfl
  | 2, _ => rfl

theorem map_decode_none : Option.map K2.decodeEntry none = none := rfl

theorem map_decode_some (e : K2.CidrV4Entry) :
    Option.map K2.decodeEntry (some e) = some (K2.decodeEntry e) := rfl

theorem mergeBest_none_r (b : Option (Nat × K2.Target)) :
    K2.mergeBest b none = b := rfl

theorem mergeBest_none_l (rv : Nat × K2.Target) :
    K2.mergeBest none (some rv) = some rv := rfl

theorem mergeBest_some (bv rv : Nat × K2.Target) :
    K2.mergeBest (some bv) (some rv) =
      if bv.1 < rv.1 then some rv else some bv := rfl

theorem decodeEntry_fst (e : K2.CidrV4Entry) :
    (K2.decodeEntry e).1 = e.prefix_len := rfl

/-- The scan loop of `lookup_cidr_v4` computes the merge of the incoming
best match with the first-longest covering entry of the remaining list,
provided every remaining target byte decodes. -/
theorem lookupCidrV4Loop_eq (ip : Nat) (es : List K2.CidrV4Entry)
    (hv : ∀ e ∈ es, e.target ≤ 2) (best : Option (Nat × K2.Target)) :
    K2.lookupCidrV4Loop ip es best =
      K2.mergeBest best ((K2.firstLongestV4 ip es).map K2.decodeEntry) := by
  induction es generalizing best with
  | nil => cases best <;> rfl
  | cons e rest ih =>
    have hve : e.target ≤ 2 := hv e (List.mem_cons_self e rest)
    have hvr : ∀ x ∈ rest, x.target ≤ 2 :=
      fun x hx => hv x (List.mem_cons_of_mem e hx)
    obtain ⟨te, hte⟩ : ∃ t, K2.Target.from_u8 e.target = some t :=
      ⟨_, from_u8_of_le hve⟩
    have hdecode : K2.decodeEntry e = (e.prefix_len, te) := by
      simp [K2.decodeEntry, hte]
    by_cases hc :
        (ip &&& K2.v4Mask e.prefix_len) = (e.network &&& K2.v4Mask e.prefix_len)
    · cases best with
      | none =>
        simp only [K2.lookupCidrV4Loop, if_pos hc, hte]
        rw [ih hvr]
        simp only [K2.firstLongestV4, if_pos hc]
        cases hfl : K2.firstLongestV4 ip rest with
        | none =>
          simp only [map_decode_none, map_decode_some, mergeBest_none_r,
            mergeBest_none_l, hdecode]
        | some b =>
          simp only [map_decode_none, map_decode_some, mergeBest_none_r,
            mergeBest_none_l, hdecode]
          try split_ifs
          all_goals
            simp only [map_decode_none, map_decode_some, mergeBest_none_r,
              mergeBest_none_l, mergeBest_some, decodeEntry_fst, hdecode]
          all_goals try split_ifs
          all_goals first | rfl | (exfalso; omega)
      | some bst =>
        by_cases hple : e.prefix_len ≤ bst.1
        · have hloop :
              K2.lookupCidrV4Loop ip (e :: rest) (some bst) =
                K2.lookupCidrV4Loop ip rest (some bst) := by
            obtain ⟨bp, bt⟩ := bst
            simp only [K2.lookupCidrV4Loop, if_pos hc, if_pos hple]
          rw [hloop, ih hvr]
          simp only [K2.firstLongestV4, if_pos hc]
          cases hfl : K2.firstLongestV4 ip rest with
          | none =>
            simp only [map_decode_none, map_decode_some, mergeBest_none_r,
              mergeBest_none_l, mergeBest_some, decodeEntry_fst, hdecode]
            try split_ifs
            all_goals first | rfl | (exfalso; omega)
          | some b =>
            simp only [map_decode_none, map_decode_some, mergeBest_none_r,
              mergeBest_none_l, hdecode]
            try split_ifs
            all_goals
              simp only [map_decode_none, map_decode_some, mergeBest_none_r,
                mergeBest_none_l, mergeBest_some, decodeEntry_fst, hdecode]
            all_goals try split_ifs
            all_goals first | rfl | (exfalso; omega)
        · have hloop :
              K2.lookupCidrV4Loop ip (e :: rest) (some bst) =
                K2.lookupCidrV4Loop ip rest (some (e.prefix_len, te)) := by
            obtain ⟨bp, bt⟩ := bst
            simp only [K2.lookupCidrV4Loop, if_pos hc, if_neg hple, hte]
          rw [hloop, ih hvr]
          simp only [K2.firstLongestV4, if_pos hc]
          cases hfl : K2.firstLongestV4 ip rest with
          | none =>
            simp only [map_decode_none, map_decode_some, mergeBest_none_r,
              mergeBest_none_l, mergeBest_some, decodeEntry_fst, hdecode]
            try split_ifs
            all_goals first | rfl | (exfalso; omega)
          | some b =>
            simp only [map_decode_none, map_decode_some, mergeBest_none_r,
              mergeBest_none_l, hdecode]
            try split_ifs
            all_goals
              simp only [map_decode_none, map_decode_some, mergeBest_none_r,
                mergeBest_none_l, mergeBest_some, decodeEntry_fst, hdecode]
            all_goals try split_ifs
            all_goals first | rfl | (exfalso; omega)
    · simp only [K2.lookupCidrV4Loop, if_neg hc]
      rw [ih hvr]
      simp only [K2.firstLongestV4, if_neg hc]

/-- When `firstLongestV4` yields no entry, no entry of the list covers the
address. -/
theorem firstLongestV4_none (ip : Nat) :
    ∀ es : List K2.CidrV4Entry, K2.firstLongestV4 ip es = none →
      ∀ x ∈ es,
        (ip &&& K2.v4Mask x.prefix_len) ≠
          (x.network &&& K2.v4Mask x.prefix_len) := by
  intro es
  induction es with
  | nil =>
    intro _ x hx
    cases hx
  | cons y ys ih =>
    intro h x hx
    simp only [K2.firstLongestV4] at h
    by_cases hyc :
        (ip &&& K2.v4Mask y.prefix_len) = (y.network &&& K2.v4Mask y.prefix_len)
    · exfalso
      rw [if_pos hyc] at h
      cases hq : K2.firstLongestV4 ip ys with
      | none =>
        rw [hq] at h
        exact Option.noConfusion (show some y = none from h)
      | some b =>
        rw [hq] at h
        have h' :
            (if b.prefix_len ≤ y.prefix_len then some y else some b) = none := h
        split_ifs at h'
    · rw [if_neg hyc] at h
      rcases List.mem_cons.mp hx with hx' | hx'
      · subst hx'
        exact hyc
      · exact ih h x hx'

/-- When `firstLongestV4` yields an entry, that entry is a covering entry of
the list with the maximal prefix length among covering entries. -/
theorem firstLongestV4_spec (ip : Nat) :
    ∀ (es : List K2.CidrV4Entry) (e : K2.CidrV4Entry),
      K2.firstLongestV4 ip es = some e →
      e ∈ es ∧
      (ip &&& K2.v4Mask e.prefix_len) = (e.network &&& K2.v4Mask e.prefix_len) ∧
      ∀ x ∈ es,
        (ip &&& K2.v4Mask x.prefix_len) = (x.network &&& K2.v4Mask x.prefix_len) →
        x.prefix_len ≤ e.prefix_len := by
  intro es
  induction es with
  | nil =>
    intro e h
    cases h
  | cons hd rest ih =>
    intro e h
    simp only [K2.firstLongestV4] at h
    by_cases hc :
        (ip &&& K2.v4Mask hd.prefix_len) = (hd.network &&& K2.v4Mask hd.prefix_len)
    · rw [if_pos hc] at h
      cases hfl : K2.firstLongestV4 ip rest with
      | none =>
        rw [hfl] at h
        have h' : some hd = some e := h
        injection h' with h''
        subst h''
        refine ⟨List.mem_cons_self _ _, hc, ?_⟩
        intro x hx hxc
        rcases List.mem_cons.mp hx with hx' | hx'
        · subst hx'
          exact le_refl _
        · exact absurd hxc (firstLongestV4_none ip rest hfl x hx')
      | some b =>
        rw [hfl] at h
        have h' :
            (if b.prefix_len ≤ hd.prefix_len then some hd else some b) =
              some e := h
        obtain ⟨hbmem, hbcov, hbmax⟩ := ih b hfl
        by_cases hbp : b.prefix_len ≤ hd.prefix_len
        · rw [if_pos hbp] at h'
          injection h' with h''
          subst h''
          refine ⟨List.mem_cons_self _ _, hc, ?_⟩
          intro x hx hxc
          rcases List.mem_cons.mp hx with hx' | hx'
          · subst hx'
            exact le_refl _
          · exact le_trans (hbmax x hx' hxc) hbp
        · rw [if_neg hbp] at h'
          injection h' with h''
          subst h''
          refine ⟨List.mem_cons_of_mem _ hbmem, hbcov, ?_⟩
          intro x hx hxc
          rcases List.mem_cons.mp hx with hx' | hx'
          · subst hx'
            omega
          · exact hbmax x hx' hxc
    · rw [if_neg hc] at h
      obtain ⟨hmem, hcov, hmax⟩ := ih e h
      refine ⟨List.mem_cons_of_mem _ hmem, hcov, ?_⟩
      intro x hx hxc
      rcases List.mem_cons.mp hx with hx' | hx'
      · subst hx'
        exact absurd hxc hc
      · exact hmax x hx' hxc

/-- Bitwise AND with a low mask is reduction modulo the power of two. -/
theorem land_two_pow_sub_one (x n : Nat) : x &&& (2 ^ n - 1) = x % 2 ^ n := by
  apply Nat.eq_of_testBit_eq
  intro i
  rw [Nat.testBit_land, Nat.testBit_two_pow_sub_one, Nat.testBit_mod_two_pow]
  exact Bool.and_comm _ _

/-- C4: V1 IPv4 CIDR lookup is longest-prefix.  On a container whose header
CIDR count is consistent with its tables and whose stored target bytes are
valid, `match_ip` on an IPv4 address returns exactly the decoded target of
the first-encountered longest-prefix covering entry (none when no entry
covers); any entry produced by `firstLongestV4` covers the address and has
maximal prefix length; a prefix-0 entry covers every address; and a
prefix-32 entry covers exactly its own network address. -/
theorem c4_cidr_v4_most_specific (r : K2.BinaryRuleReader) (ip : Nat)
    (hcnt : r.cidr_count = r.cidr_v4.length + r.cidr_v6.length)
    (hv : ∀ e ∈ r.cidr_v4, e.target ≤ 2) :
    (r.match_ip (K2.IpAddr.v4 ip) =
      (K2.firstLongestV4 ip r.cidr_v4).map
        (fun e => (K2.Target.from_u8 e.target).getD K2.Target.Direct)) ∧
    (∀ e, K2.firstLongestV4 ip r.cidr_v4 = some e →
      e ∈ r.cidr_v4 ∧
      (ip &&& K2.v4Mask e.prefix_len) = (e.network &&& K2.v4Mask e.prefix_len) ∧
      ∀ x ∈ r.cidr_v4,
        (ip &&& K2.v4Mask x.prefix_len) = (x.network &&& K2.v4Mask x.prefix_len) →
        x.prefix_len ≤ e.prefix_len) ∧
    (∀ net, (ip &&& K2.v4Mask 0) = (net &&& K2.v4Mask 0)) ∧
    (ip < 2 ^ 32 → ∀ net, net < 2 ^ 32 →
      ((ip &&& K2.v4Mask 32) = (net &&& K2.v4Mask 32) ↔ ip = net)) := by
  refine ⟨?_, fun e he => firstLongestV4_spec ip r.cidr_v4 e he, ?_, ?_⟩
  · have hstub : r.match_ip (K2.IpAddr.v4 ip) = r.lookup_cidr_v4 ip := by
      simp [K2.BinaryRuleReader.match_ip, K2.BinaryRuleReader.lookup_exact_ip,
        K2.BinaryRuleReader.lookup_cidr, ite_self]
    rw [hstub]
    rw [K2.BinaryRuleReader.lookup_cidr_v4]
    by_cases hz : r.cidr_count = 0
    · have hv4 : r.cidr_v4 = [] := by
        have := hcnt
        rw [hz] at this
        exact List.length_eq_zero.mp (by omega)
      rw [if_pos hz, hv4]
      rfl
    · rw [if_neg hz]
      by_cases hlen : r.cidr_v4.length = 0
      · rw [if_pos hlen, List.length_eq_zero.mp hlen]
        rfl
      · rw [if_neg hlen]
        rw [lookupCidrV4Loop_eq ip r.cidr_v4 hv none]
        cases hfl : K2.firstLongestV4 ip r.cidr_v4 with
        | none => rfl
        | some b => simp [K2.mergeBest, K2.decodeEntry]
  · intro net
    have h0 : K2.v4Mask 0 = 0 := rfl
    rw [h0]
    simp
  · intro hip net hnet
    have h32 : K2.v4Mask 32 = 2 ^ 32 - 1 := by decide
    rw [h32, land_two_pow_sub_one, land_two_pow_sub_one,
      Nat.mod_eq_of_lt hip, Nat.mod_eq_of_lt hnet]

/-- Witness for C4: a three-entry table with overlapping /8, /16, /24
networks; the address 10.1.1.1 resolves to the /24 entry's Reject target. -/
theorem c4_cidr_v4_most_specific_witness :
    (K2.BinaryRuleReader.mk 0 [] [] 3
        [⟨0x0A000000, 8, 0⟩, ⟨0x0A010000, 16, 1⟩, ⟨0x0A010100, 24, 2⟩] [] 0
        []).cidr_count =
      (K2.BinaryRuleReader.mk 0 [] [] 3
        [⟨0x0A000000, 8, 0⟩, ⟨0x0A010000, 16, 1⟩, ⟨0x0A010100, 24, 2⟩] [] 0
        []).cidr_v4.length +
      (K2.BinaryRuleReader.mk 0 [] [] 3
        [⟨0x0A000000, 8, 0⟩, ⟨0x0A010000, 16, 1⟩, ⟨0x0A010100, 24, 2⟩] [] 0
        []).cidr_v6.length ∧
    (K2.BinaryRuleReader.mk 0 [] [] 3
        [⟨0x0A000000, 8, 0⟩, ⟨0x0A010000, 16, 1⟩, ⟨0x0A010100, 24, 2⟩] [] 0
        []).match_ip (K2.IpAddr.v4 0x0A010101) = some K2.Target.Reject := by
  refine ⟨rfl, ?_⟩
  have h :=
    (c4_cidr_v4_most_specific
      (K2.BinaryRuleReader.mk 0 [] [] 3
        [⟨0x0A000000, 8, 0⟩, ⟨0x0A010000, 16, 1⟩, ⟨0x0A010100, 24, 2⟩] [] 0 [])
      0x0A010101 rfl (by decide)).1
  rw [h]
  decide

/-- For every slice list and normalized query, the scan of
`SliceReader::match_domain` returns the target of the first slice that is an
`FstDomain` slice and matches the query, and `none` when no slice matches. -/
theorem matchDomainGo_eq_find (l : List K2.SliceEntry) (nq : List Nat) :
    K2.SliceReader.match_domain.go l nq =
      (l.find? (fun e =>
        decide (e.get_type = some K2.SliceType.FstDomain) &&
          K2.SliceReader.match_domain_in_slice e nq)).map
        K2.SliceEntry.get_target := by
  induction l with
  | nil => rfl
  | cons e rest ih =>
    by_cases ht : e.get_type = some K2.SliceType.FstDomain
    · by_cases hh : K2.SliceReader.match_domain_in_slice e nq
      · simp [K2.SliceReader.match_domain.go, List.find?, ht, hh]
      · simp [K2.SliceReader.match_domain.go, List.find?, ht, hh, ih]
    · simp [K2.SliceReader.match_domain.go, List.find?, ht, ih]

/-- C5: V2 slice order is match priority.  `SliceReader::match_domain`
returns the target of the first `FstDomain` slice in file order whose FST
set contains the reversed dot-prefixed lowercased query or one of its
reversed dot-aligned parents (so no later slice can override an earlier
hit), and on the concrete container with slice 0 = [cn.bing.com] -> Direct,
slice 1 = [bing.com] -> Proxy the four queries resolve as the spec's
scenario requires. -/
theorem c5_slice_order_is_priority :
    (∀ (r : K2.SliceReader) (domain : List Nat),
      r.match_domain domain =
        (r.entries.find? (fun e =>
          decide (e.get_type = some K2.SliceType.FstDomain) &&
            K2.SliceReader.match_domain_in_slice e (K2.lowerBytes domain))).map
          K2.SliceEntry.get_target) ∧
    K2.orderedSliceReader.match_domain K2.cnBingBytes = some K2.Target.Direct ∧
    K2.orderedSliceReader.match_domain K2.wwwCnBingBytes = some K2.Target.Direct ∧
    K2.orderedSliceReader.match_domain K2.bingBytes = some K2.Target.Proxy ∧
    K2.orderedSliceReader.match_domain K2.wwwBingBytes = some K2.Target.Proxy := by
  refine ⟨?_, by decide, by decide, by decide, by decide⟩
  intro r domain
  simpa [K2.SliceReader.match_domain] using
    matchDomainGo_eq_find r.entries (K2.lowerBytes domain)

/-- C1: for a V1 container holding the suffix rule `.google.com -> Proxy`,
the claim (and the repository's own test `test_suffix_domain_match` in
src/binary/tests.rs) requires `match_domain("google.com") = Some(Proxy)`,
but the reader's suffix loop advances past a dot before its first probe, so
the full query is never tried as a suffix candidate and the bare suffix
returns no match; a proper dot-aligned subdomain such as `www.google.com`
does match.  This theorem evaluates the embedded code at that failing
input. -/
theorem c1_bare_suffix_evaluation :
    K2.suffixOnlyReader.match_domain K2.googleBytes = none ∧
    K2.suffixOnlyReader.match_domain K2.wwwGoogleBytes = some K2.Target.Proxy := by
  constructor
  · decide
  · decide

/-- C3: `CachedBinaryReader::reload`/`reload_from_bytes` are transactional:
when building the new reader succeeds the new snapshot is installed, the
generation increases by exactly 1, and the cache is cleared
(`cache_stats().len = 0`); when building fails the error is returned and the
whole state — snapshot, generation, and cache — is unchanged. -/
theorem c3_reload_transactional (r : K2.CachedBinaryReader)
    (build : Except Nat K2.BinaryRuleReader) :
    (∀ nr, build = Except.ok nr →
      (r.reload build).2 = Except.ok () ∧
      (r.reload build).1.inner = nr ∧
      (r.reload build).1.generation = r.generation + 1 ∧
      (r.reload build).1.cache_len = 0) ∧
    (∀ e, build = Except.error e →
      (r.reload build).2 = Except.error e ∧
      (r.reload build).1 = r) := by
  constructor
  · intro nr hb
    subst hb
    refine ⟨rfl, rfl, rfl, ?_⟩
    simp only [K2.CachedBinaryReader.reload, K2.CachedBinaryReader.cache_len]
    cases r.cache <;> simp
  · intro e hb
    subst hb
    exact ⟨rfl, rfl⟩

/-- Witness for C3: the transactional contract evaluated on a concrete
cached reader with a populated cache, once for a successful build and once
for a failing one. -/
theorem c3_reload_transactional_witness :
    ((K2.CachedBinaryReader.mk ⟨0, [], [], 0, [], [], 0, []⟩
        (some [(7, some K2.Target.Direct)]) 5).reload
      (Except.ok ⟨1, [], [], 0, [], [], 0, []⟩)).2 = Except.ok () ∧
    ((K2.CachedBinaryReader.mk ⟨0, [], [], 0, [], [], 0, []⟩
        (some [(7, some K2.Target.Direct)]) 5).reload
      (Except.ok ⟨1, [], [], 0, [], [], 0, []⟩)).1.inner =
        ⟨1, [], [], 0, [], [], 0, []⟩ ∧
    ((K2.CachedBinaryReader.mk ⟨0, [], [], 0, [], [], 0, []⟩
        (some [(7, some K2.Target.Direct)]) 5).reload
      (Except.ok ⟨1, [], [], 0, [], [], 0, []⟩)).1.generation = 5 + 1 ∧
    ((K2.CachedBinaryReader.mk ⟨0, [], [], 0, [], [], 0, []⟩
        (some [(7, some K2.Target.Direct)]) 5).reload
      (Except.ok ⟨1, [], [], 0, [], [], 0, []⟩)).1.cache_len = 0 ∧
    ((K2.CachedBinaryReader.mk ⟨0, [], [], 0, [], [], 0, []⟩
        (some [(7, some K2.Target.Direct)]) 5).reload
      (Except.error 3)).2 = Except.error 3 ∧
    ((K2.CachedBinaryReader.mk ⟨0, [], [], 0, [], [], 0, []⟩
        (some [(7, some K2.Target.Direct)]) 5).reload
      (Except.error 3)).1 =
        K2.CachedBinaryReader.mk ⟨0, [], [], 0, [], [], 0, []⟩
          (some [(7, some K2.Target.Direct)]) 5 := by
  obtain ⟨h1, h2, h3, h4⟩ :=
    (c3_reload_transactional
      (K2.CachedBinaryReader.mk ⟨0, [], [], 0, [], [], 0, []⟩
        (some [(7, some K2.Target.Direct)]) 5)
      (Except.ok ⟨1, [], [], 0, [], [], 0, []⟩)).1
      ⟨1, [], [], 0, [], [], 0, []⟩ rfl
  obtain ⟨h5, h6⟩ :=
    (c3_reload_transactional
      (K2.CachedBinaryReader.mk ⟨0, [], [], 0, [], [], 0, []⟩
        (some [(7, some K2.Target.Direct)]) 5)
      (Except.error 3)).2 3 rfl
  exact ⟨h1, h2, h3, h4, h5, h6⟩

/-- C6 counterexample: a V1 container written from the single exact-IP rule
`1.2.3.4 -> Proxy` (so its IP section holds that entry and `ip_count = 1`);
the claim requires `match_ip(1.2.3.4) = Some(Proxy)` via binary search in the
exact-IP table, but `lookup_exact_ip` is a TODO stub returning `None` and no
CIDR entry exists, so `match_ip` returns no match. -/
theorem c6_exact_ip_counterexample :
    (K2.BinaryRuleWriter.write 16
        ⟨[], [], [], [], [(0x01020304, K2.Target.Proxy)]⟩).match_ip
      (K2.IpAddr.v4 0x01020304) = none ∧
    (K2.BinaryRuleWriter.write 16
        ⟨[], [], [], [], [(0x01020304, K2.Target.Proxy)]⟩).ip_count = 1 ∧
    (K2.BinaryRuleWriter.write 16
        ⟨[], [], [], [], [(0x01020304, K2.Target.Proxy)]⟩).exact_v4_ips =
      [(0x01020304, 1)] := by
  refine ⟨?_, rfl, ?_⟩
  · decide
  · decide

/-- C6 amended: `match_ip` consults `lookup_exact_ip` before CIDR, but that
lookup is an unimplemented stub returning `None` on every input, so the
exact-IP table never contributes and `match_ip` coincides with the CIDR
lookup on every container and address. -/
theorem c6_exact_ip_amended (r : K2.BinaryRuleReader) (ip : K2.IpAddr) :
    r.match_ip ip = r.lookup_cidr ip := by
  simp only [K2.BinaryRuleReader.match_ip, K2.BinaryRuleReader.lookup_exact_ip,
    ite_self]

/-- C7 counterexample: a 128-byte file whose header carries the correct magic
and version but whose IP-index section `(offset, size) = (100000, 64)` lies
far outside the file still opens successfully — `open`/`from_bytes` perform
no section-range validation (and the source error enum has no corrupt-index
variant), contradicting the claim that such inputs are rejected. -/
theorem c7_no_section_range_check :
    K2.openCheck 128
      ⟨K2.MAGIC, 1, 128, 0, 128, 0, 128, 0, 100000, 64, 128, 0⟩ = none ∧
    128 <
      (K2.BinaryHeader.mk K2.MAGIC 1 128 0 128 0 128 0 100000 64 128
        0).ip_index_offset +
      (K2.BinaryHeader.mk K2.MAGIC 1 128 0 128 0 128 0 100000 64 128
        0).ip_index_size := by
  exact ⟨by decide, by decide⟩

/-- C7 amended: `open`/`from_bytes` succeed exactly when the input is at
least the 128-byte header, the magic is `K2RULE\x00\x01`, and the version is
at most the supported version 1; section offset/size pairs are never
inspected at open time (out-of-range sections are tolerated and handled by
per-lookup bounds checks). -/
theorem c7_open_validation (data_len : Nat) (h : K2.BinaryHeader) :
    K2.openCheck data_len h = none ↔
      128 ≤ data_len ∧ h.magic = K2.MAGIC ∧ h.version ≤ 1 := by
  simp only [K2.openCheck, K2.BinaryHeader.validate]
  split_ifs with hlen hmag hver
  · constructor
    · intro hc
      exact absurd hc (by simp)
    · intro hrhs
      exfalso
      omega
  · constructor
    · intro hc
      exact absurd hc (by simp)
    · intro hrhs
      exact absurd hrhs.2.1 hmag
  · constructor
    · intro hc
      exact absurd hc (by simp)
    · intro hrhs
      exfalso
      omega
  · constructor
    · intro _
      exact ⟨by omega, not_not.mp hmag, by omega⟩
    · intro _
      rfl

/-- C8: `RemoteRuleManager::update` saves a fresh `ETag` header to memory and
to the `rules.k2r.etag` sidecar *before* `process_response` can fail.  On a
200 response carrying `ETag` byte 110 whose 3-byte body fails container
validation, the call returns an error, the rule and metadata sidecars keep
their prior contents, but the etag sidecar and the in-memory tag (the value a
subsequent `update` sends as `If-None-Match`) have already been overwritten —
contradicting the spec's "update sidecars only after a successful swap; on
any error, leave prior state intact". -/
theorem c8_etag_written_before_validation :
    ((K2.RemoteRuleManager.mk (some [111])
        ⟨some K2.MAGIC, some [111], some (some 5, some [111])⟩).update
      (fun _ => none) 42 (K2.HttpOutcome.ok (some [110]) [0, 1, 2])).2 =
        K2.UpdateResult.err ∧
    ((K2.RemoteRuleManager.mk (some [111])
        ⟨some K2.MAGIC, some [111], some (some 5, some [111])⟩).update
      (fun _ => none) 42 (K2.HttpOutcome.ok (some [110]) [0, 1, 2])).1.fs.etag_file =
        some [110] ∧
    ((K2.RemoteRuleManager.mk (some [111])
        ⟨some K2.MAGIC, some [111], some (some 5, some [111])⟩).update
      (fun _ => none) 42 (K2.HttpOutcome.ok (some [110]) [0, 1, 2])).1.etag =
        some [110] ∧
    ((K2.RemoteRuleManager.mk (some [111])
        ⟨some K2.MAGIC, some [111], some (some 5, some [111])⟩).update
      (fun _ => none) 42 (K2.HttpOutcome.ok (some [110]) [0, 1, 2])).1.fs.rules_file =
        some K2.MAGIC ∧
    ((K2.RemoteRuleManager.mk (some [111])
        ⟨some K2.MAGIC, some [111], some (some 5, some [111])⟩).update
      (fun _ => none) 42 (K2.HttpOutcome.ok (some [110]) [0, 1, 2])).1.fs.meta_file =
        some (some 5, some [111]) := by
  refine ⟨rfl, rfl, rfl, rfl, rfl⟩

/-- C9 counterexample: a V2 container whose only slice has type byte 0x05
(`ExactIpV4`) with target `Proxy` and a payload holding the packed entry for
address 1.2.3.4; the claim requires `match_ip(1.2.3.4) = Some(Proxy)`, but
`SliceReader::match_ip` dispatches only on the CidrV4/CidrV6 slice kinds and
skips exact-IP slices via its catch-all arm, so the lookup returns no
match. -/
theorem c9_exact_ip_slice_counterexample :
    (K2.SliceReader.mk ⟨1⟩
        [⟨5, 1, K2.SliceBlob.raw [1, 2, 3, 4, 1, 0, 0, 0]⟩]).match_ip
      (K2.IpAddr.v4 0x01020304) = none := by
  decide

/-- C9 amended: within `SliceReader::match_ip`, a slice whose type byte is
0x05 (`ExactIpV4`) or 0x06 (`ExactIpV6`) is skipped — the scan continues on
the remaining slices unchanged for every query, so exact-IP slices never
participate in IP matching. -/
theorem c9_exact_ip_slices_skipped (hd : K2.SliceHeader) (e : K2.SliceEntry)
    (rest : List K2.SliceEntry) (ip : K2.IpAddr)
    (h : e.slice_type = 5 ∨ e.slice_type = 6) :
    (K2.SliceReader.mk hd (e :: rest)).match_ip ip =
      (K2.SliceReader.mk hd rest).match_ip ip := by
  obtain ⟨st, tb, bl⟩ := e
  simp only [K2.SliceReader.match_ip]
  rcases h with h | h <;> simp only at h <;> subst h <;> cases ip <;> rfl

/-- Witness for C9 amended: a concrete ExactIpV4 slice in front of an empty
tail is skipped. -/
theorem c9_exact_ip_slices_skipped_witness :
    (K2.SliceReader.mk ⟨1⟩ [⟨5, 1, K2.SliceBlob.raw []⟩]).match_ip
        (K2.IpAddr.v4 7) =
      (K2.SliceReader.mk ⟨1⟩ []).match_ip (K2.IpAddr.v4 7) :=
  c9_exact_ip_slices_skipped ⟨1⟩ ⟨5, 1, K2.SliceBlob.raw []⟩ [] (K2.IpAddr.v4 7)
    (Or.inl rfl)

/-- C10: `Target::from_u8` returns `None` on every byte outside {0, 1, 2},
and both `SliceEntry::get_target` and `SliceHeader::fallback` substitute
`Direct` in that case, so a corrupt target byte silently behaves as the
Direct decision. -/
theorem c10_corrupt_target_byte_is_direct (b : Nat) (h0 : b ≠ 0) (h1 : b ≠ 1)
    (h2 : b ≠ 2) :
    K2.Target.from_u8 b = none ∧
    (∀ st blob, (K2.SliceEntry.mk st b blob).get_target = K2.Target.Direct) ∧
    K2.SliceHeader.fallback ⟨b⟩ = K2.Target.Direct := by
  have hb : K2.Target.from_u8 b = none := by
    match b, h0, h1, h2 with
    | 0, h0, _, _ => exact absurd rfl h0
    | 1, _, h1, _ => exact absurd rfl h1
    | 2, _, _, h2 => exact absurd rfl h2
    | n + 3, _, _, _ => rfl
  refine ⟨hb, ?_, ?_⟩
  · intro st blob
    simp [K2.SliceEntry.get_target, hb]
  · simp [K2.SliceHeader.fallback, hb]

/-- Witness for C10 at the concrete byte 3. -/
theorem c10_corrupt_target_byte_is_direct_witness :
    K2.Target.from_u8 3 = none ∧
    (∀ st blob, (K2.SliceEntry.mk st 3 blob).get_target = K2.Target.Direct) ∧
    K2.SliceHeader.fallback ⟨3⟩ = K2.Target.Direct :=
  c10_corrupt_target_byte_is_direct 3 (by decide) (by decide) (by decide)

/-! Machinery for the open-addressing round-trip proof (claim C2): slot
access lemmas, a monotonicity order on tables, occupancy counting, and the
insert-then-find property of linear probing. -/

namespace K2

/-- `t2` extends `t1` when it has the same length and agrees with `t1` on
every occupied slot (probing only ever writes into empty slots). -/
def TableExtends (t1 t2 : List DomainExactEntry) : Prop :=
  t1.length = t2.length ∧
  ∀ i, (t1.getD i ⟨0, 0⟩).hash ≠ 0 → t2.getD i ⟨0, 0⟩ = t1.getD i ⟨0, 0⟩

/-- Number of occupied (nonzero-hash) slots. -/
def filledCount (buckets : List DomainExactEntry) : Nat :=
  (buckets.filter (fun e => decide (e.hash ≠ 0))).length

/-- Every occupied slot's hash belongs to `S`. -/
def HashesIn (buckets : List DomainExactEntry) (S : List Nat) : Prop :=
  ∀ i, (buckets.getD i ⟨0, 0⟩).hash ≠ 0 → (buckets.getD i ⟨0, 0⟩).hash ∈ S

end K2

theorem getD_set_self {α : Type} {l : List α} {i : Nat} (hi : i < l.length)
    (v d : α) : (l.set i v).getD i d = v := by
  rw [List.getD_eq_getElem?_getD, List.getElem?_set_eq_of_lt v hi]
  rfl

theorem getD_set_ne {α : Type} {l : List α} {i j : Nat} (hij : i ≠ j)
    (v d : α) : (l.set i v).getD j d = l.getD j d := by
  rw [List.getD_eq_getElem?_getD, List.getElem?_set_ne hij,
    ← List.getD_eq_getElem?_getD]

theorem getD_set_if {α : Type} (l : List α) (i : Nat) (v d : α) :
    (l.set i v).getD i d = if i < l.length then v else d := by
  by_cases hi : i < l.length
  · rw [getD_set_self hi, if_pos hi]
  · rw [List.getD_eq_getElem?_getD,
      List.getElem?_eq_none (by rw [List.length_set]; omega), if_neg hi]
    rfl

theorem getD_replicate {α : Type} (n i : Nat) (a : α) :
    (List.replicate n a).getD i a = a := by
  rw [List.getD_eq_getElem?_getD, List.getElem?_replicate]
  split <;> rfl

theorem length_probeInsert (buckets : List K2.DomainExactEntry)
    (n : Nat) (h t : Nat) :
    ∀ (fuel idx : Nat),
      (K2.probeInsert buckets n idx fuel h t).length = buckets.length := by
  intro fuel
  induction fuel with
  | zero => intro idx; rfl
  | succ fuel ih =>
    intro idx
    simp only [K2.probeInsert]
    split
    · exact List.length_set buckets idx _
    · exact ih _

theorem probeInsert_step_empty (buckets : List K2.DomainExactEntry)
    (n idx fuel h t : Nat) (h0 : (buckets.getD idx ⟨0, 0⟩).hash = 0) :
    K2.probeInsert buckets n idx (fuel + 1) h t = buckets.set idx ⟨h, t⟩ := by
  simp only [K2.probeInsert, if_pos h0]

theorem probeInsert_step_occupied (buckets : List K2.DomainExactEntry)
    (n idx fuel h t : Nat) (h0 : (buckets.getD idx ⟨0, 0⟩).hash ≠ 0) :
    K2.probeInsert buckets n idx (fuel + 1) h t =
      K2.probeInsert buckets n ((idx + 1) % n) fuel h t := by
  simp only [K2.probeInsert, if_neg h0]

theorem probeLookup_step_empty (buckets : List K2.DomainExactEntry)
    (n idx fuel h : Nat) (h0 : (buckets.getD idx ⟨0, 0⟩).hash = 0) :
    K2.probeLookup buckets n idx (fuel + 1) h = none := by
  simp only [K2.probeLookup, if_pos h0]

theorem probeLookup_step_hit (buckets : List K2.DomainExactEntry)
    (n idx fuel h : Nat) (h0 : (buckets.getD idx ⟨0, 0⟩).hash ≠ 0)
    (hhit : (buckets.getD idx ⟨0, 0⟩).hash = h) :
    K2.probeLookup buckets n idx (fuel + 1) h =
      K2.Target.from_u8 (buckets.getD idx ⟨0, 0⟩).target := by
  simp only [K2.probeLookup, if_neg h0, if_pos hhit]

theorem probeLookup_step_miss (buckets : List K2.DomainExactEntry)
    (n idx fuel h : Nat) (h0 : (buckets.getD idx ⟨0, 0⟩).hash ≠ 0)
    (hmiss : (buckets.getD idx ⟨0, 0⟩).hash ≠ h) :
    K2.probeLookup buckets n idx (fuel + 1) h =
      K2.probeLookup buckets n ((idx + 1) % n) fuel h := by
  simp only [K2.probeLookup, if_neg h0, if_neg hmiss]

theorem probeInsert_extends (buckets : List K2.DomainExactEntry)
    (n h t : Nat) :
    ∀ (fuel idx : Nat),
      K2.TableExtends buckets (K2.probeInsert buckets n idx fuel h t) := by
  intro fuel
  induction fuel with
  | zero => intro idx; exact ⟨rfl, fun i _ => rfl⟩
  | succ fuel ih =>
    intro idx
    by_cases h0 : (buckets.getD idx ⟨0, 0⟩).hash = 0
    · rw [probeInsert_step_empty buckets n idx fuel h t h0]
      refine ⟨(List.length_set buckets idx _).symm, ?_⟩
      intro i hi
      by_cases hix : idx = i
      · subst hix
        exact absurd h0 hi
      · exact getD_set_ne hix _ _
    · rw [probeInsert_step_occupied buckets n idx fuel h t h0]
      exact ih _

theorem tableExtends_trans {t1 t2 t3 : List K2.DomainExactEntry}
    (h12 : K2.TableExtends t1 t2) (h23 : K2.TableExtends t2 t3) :
    K2.TableExtends t1 t3 := by
  refine ⟨h12.1.trans h23.1, ?_⟩
  intro i hi
  have e12 := h12.2 i hi
  have hne2 : (t2.getD i ⟨0, 0⟩).hash ≠ 0 := by rw [e12]; exact hi
  rw [h23.2 i hne2, e12]

theorem probeLookup_mono {t1 t2 : List K2.DomainExactEntry}
    (hx : K2.TableExtends t1 t2) (n h : Nat) :
    ∀ (fuel idx : Nat) (tgt : K2.Target),
      K2.probeLookup t1 n idx fuel h = some tgt →
      K2.probeLookup t2 n idx fuel h = some tgt := by
  intro fuel
  induction fuel with
  | zero =>
    intro idx tgt hl
    exact absurd hl (by simp [K2.probeLookup])
  | succ fuel ih =>
    intro idx tgt hl
    by_cases h0 : (t1.getD idx ⟨0, 0⟩).hash = 0
    · rw [probeLookup_step_empty t1 n idx fuel h h0] at hl
      cases hl
    · have hslot := hx.2 idx h0
      by_cases hhit : (t1.getD idx ⟨0, 0⟩).hash = h
      · rw [probeLookup_step_hit t1 n idx fuel h h0 hhit] at hl
        rw [probeLookup_step_hit t2 n idx fuel h (by rw [hslot]; exact h0)
          (by rw [hslot]; exact hhit), hslot]
        exact hl
      · rw [probeLookup_step_miss t1 n idx fuel h h0 hhit] at hl
        rw [probeLookup_step_miss t2 n idx fuel h (by rw [hslot]; exact h0)
          (by rw [hslot]; exact hhit)]
        exact ih _ tgt hl

theorem filledCount_set_le (l : List K2.DomainExactEntry) :
    ∀ (i : Nat) (v : K2.DomainExactEntry),
      K2.filledCount (l.set i v) ≤ K2.filledCount l + 1 := by
  induction l with
  | nil =>
    intro i v
    simp [K2.filledCount]
  | cons x xs ih =>
    intro i v
    cases i with
    | zero =>
      show K2.filledCount (v :: xs) ≤ K2.filledCount (x :: xs) + 1
      simp only [K2.filledCount, List.filter_cons]
      split_ifs <;> (try simp only [List.length_cons]) <;> omega
    | succ i =>
      show K2.filledCount (x :: xs.set i v) ≤ K2.filledCount (x :: xs) + 1
      have hx := ih i v
      simp only [K2.filledCount, List.filter_cons] at hx ⊢
      split_ifs <;> (try simp only [List.length_cons]) <;> omega

theorem filledCount_probeInsert_le (buckets : List K2.DomainExactEntry)
    (n h t : Nat) :
    ∀ (fuel idx : Nat),
      K2.filledCount (K2.probeInsert buckets n idx fuel h t) ≤
        K2.filledCount buckets + 1 := by
  intro fuel
  induction fuel with
  | zero =>
    intro idx
    show K2.filledCount buckets ≤ K2.filledCount buckets + 1
    omega
  | succ fuel ih =>
    intro idx
    by_cases h0 : (buckets.getD idx ⟨0, 0⟩).hash = 0
    · rw [probeInsert_step_empty buckets n idx fuel h t h0]
      exact filledCount_set_le buckets idx _
    · rw [probeInsert_step_occupied buckets n idx fuel h t h0]
      exact ih _

theorem exists_empty_slot (n : Nat) (buckets : List K2.DomainExactEntry)
    (hlen : buckets.length = n) (hcount : K2.filledCount buckets < n) :
    ∃ j < n, (buckets.getD j ⟨0, 0⟩).hash = 0 := by
  by_contra hcon
  push_neg at hcon
  have hall : ∀ e ∈ buckets, (fun e => decide (e.hash ≠ 0)) e = true := by
    intro e he
    obtain ⟨i, hi, hie⟩ := List.mem_iff_getElem.mp he
    have hgd : buckets.getD i ⟨0, 0⟩ = e := by
      rw [List.getD_eq_getElem?_getD, List.getElem?_eq_getElem hi, hie]
      rfl
    have := hcon i (by omega)
    rw [hgd] at this
    simpa using this
  have hfe : buckets.filter (fun e => decide (e.hash ≠ 0)) = buckets :=
    List.filter_eq_self.mpr hall
  rw [K2.filledCount, hfe, hlen] at hcount
  omega

theorem probe_window_covers (n idx j : Nat) (hidx : idx < n)
    (hj : j < n) : (idx + (j + n - idx) % n) % n = j := by
  rw [Nat.add_mod_mod]
  have h2 : idx + (j + n - idx) = j + n := by omega
  rw [h2, Nat.add_mod_right, Nat.mod_eq_of_lt hj]

theorem hashesIn_probeInsert (buckets : List K2.DomainExactEntry)
    (n h t : Nat) (S : List Nat) (hS : K2.HashesIn buckets S) :
    ∀ (fuel idx : Nat),
      K2.HashesIn (K2.probeInsert buckets n idx fuel h t) (h :: S) := by
  intro fuel
  induction fuel with
  | zero =>
    intro idx i hi
    exact List.mem_cons_of_mem h (hS i hi)
  | succ fuel ih =>
    intro idx
    by_cases h0 : (buckets.getD idx ⟨0, 0⟩).hash = 0
    · rw [probeInsert_step_empty buckets n idx fuel h t h0]
      intro i hi
      by_cases hix : idx = i
      · subst hix
        rw [getD_set_if] at hi ⊢
        split at hi
        · split
          · exact List.mem_cons_self h S
          · omega
        · exact absurd rfl hi
      · rw [getD_set_ne hix] at hi ⊢
        exact List.mem_cons_of_mem h (hS i hi)
    · rw [probeInsert_step_occupied buckets n idx fuel h t h0]
      exact ih _

theorem probeInsert_lookup (n : Nat) (hpos : 0 < n) (h t : Nat) (hh : h ≠ 0) :
    ∀ (fuel idx : Nat) (buckets : List K2.DomainExactEntry),
      buckets.length = n → idx < n →
      (∃ k < fuel, (buckets.getD ((idx + k) % n) ⟨0, 0⟩).hash = 0) →
      (∀ i, (buckets.getD i ⟨0, 0⟩).hash ≠ h) →
      K2.probeLookup (K2.probeInsert buckets n idx fuel h t) n idx fuel h =
        K2.Target.from_u8 t := by
  intro fuel
  induction fuel with
  | zero =>
    intro idx buckets _ _ hex _
    obtain ⟨k, hk, _⟩ := hex
    omega
  | succ fuel ih =>
    intro idx buckets hlen hidx hex hnot
    by_cases h0 : (buckets.getD idx ⟨0, 0⟩).hash = 0
    · rw [probeInsert_step_empty buckets n idx fuel h t h0]
      have hset : (buckets.set idx ⟨h, t⟩).getD idx ⟨0, 0⟩ = ⟨h, t⟩ :=
        getD_set_self (by omega) _ _
      rw [probeLookup_step_hit _ n idx fuel h (by rw [hset]; exact hh)
        (by rw [hset]), hset]
    · rw [probeInsert_step_occupied buckets n idx fuel h t h0]
      have hext := probeInsert_extends buckets n h t fuel ((idx + 1) % n)
      have hslot :
          ((K2.probeInsert buckets n ((idx + 1) % n) fuel h t).getD idx
            ⟨0, 0⟩) = buckets.getD idx ⟨0, 0⟩ := hext.2 idx h0
      rw [probeLookup_step_miss _ n idx fuel h (by rw [hslot]; exact h0)
        (by rw [hslot]; exact hnot idx)]
      obtain ⟨k, hk, hk0⟩ := hex
      have hkne : k ≠ 0 := by
        intro hkz
        subst hkz
        rw [Nat.add_zero, Nat.mod_eq_of_lt hidx] at hk0
        exact h0 hk0
      refine ih ((idx + 1) % n) buckets hlen (Nat.mod_lt _ hpos) ?_ hnot
      refine ⟨k - 1, by omega, ?_⟩
      have harith : ((idx + 1) % n + (k - 1)) % n = (idx + k) % n := by
        rw [Nat.mod_add_mod]
        congr 1
        omega
      rw [harith]
      exact hk0

theorem from_u8_as_u8 (t : K2.Target) :
    K2.Target.from_u8 t.as_u8 = some t := by
  cases t <;> rfl

theorem filledCount_replicate (n : Nat) :
    K2.filledCount (List.replicate n (⟨0, 0⟩ : K2.DomainExactEntry)) = 0 := by
  induction n with
  | zero => rfl
  | succ n ih =>
    rw [List.replicate_succ]
    simp [K2.filledCount, List.filter_cons, ih]

theorem foldl_insert_extends (n : Nat) :
    ∀ (qs : List (List Nat × K2.Target)) (buckets : List K2.DomainExactEntry),
      K2.TableExtends buckets
        (qs.foldl
          (fun b q =>
            K2.probeInsert b n (K2.fnv1a_hash q.1 % max n 1) n
              (K2.fnv1a_hash q.1) q.2.as_u8)
          buckets) := by
  intro qs
  induction qs with
  | nil =>
    intro buckets
    exact ⟨rfl, fun i _ => rfl⟩
  | cons q qs ih =>
    intro buckets
    simp only [List.foldl_cons]
    exact tableExtends_trans
      (probeInsert_extends buckets n (K2.fnv1a_hash q.1) q.2.as_u8 n
        (K2.fnv1a_hash q.1 % max n 1))
      (ih _)

theorem foldl_insert_length (n : Nat) :
    ∀ (qs : List (List Nat × K2.Target)) (buckets : List K2.DomainExactEntry),
      (qs.foldl
        (fun b q =>
          K2.probeInsert b n (K2.fnv1a_hash q.1 % max n 1) n
            (K2.fnv1a_hash q.1) q.2.as_u8)
        buckets).length = buckets.length := by
  intro qs
  induction qs with
  | nil => intro buckets; rfl
  | cons q qs ih =>
    intro buckets
    simp only [List.foldl_cons]
    rw [ih, length_probeInsert]

theorem length_buildExactTable (n : Nat)
    (exacts : List (List Nat × K2.Target)) :
    (K2.buildExactTable n exacts).length = n := by
  rw [K2.buildExactTable, foldl_insert_length, List.length_replicate]

theorem buildLookup_aux (n : Nat) (hpos : 0 < n) :
    ∀ (rest : List (List Nat × K2.Target))
      (buckets : List K2.DomainExactEntry) (seen : List Nat),
      buckets.length = n →
      K2.HashesIn buckets seen →
      K2.filledCount buckets ≤ seen.length →
      seen.length + rest.length ≤ n →
      (seen ++ rest.map (fun p => K2.fnv1a_hash p.1)).Nodup →
      (∀ p ∈ rest, K2.fnv1a_hash p.1 ≠ 0) →
      ∀ p ∈ rest,
        K2.probeLookup
          (rest.foldl
            (fun b q =>
              K2.probeInsert b n (K2.fnv1a_hash q.1 % max n 1) n
                (K2.fnv1a_hash q.1) q.2.as_u8)
            buckets)
          n (K2.fnv1a_hash p.1 % n) n (K2.fnv1a_hash p.1) = some p.2 := by
  intro rest
  induction rest with
  | nil =>
    intro buckets seen _ _ _ _ _ _ p hp
    cases hp
  | cons q qs ih =>
    intro buckets seen hlen hin hcnt htot hnd hnz p hp
    have hmax : max n 1 = n := Nat.max_eq_left hpos
    have hq0 : K2.fnv1a_hash q.1 ≠ 0 := hnz q (List.mem_cons_self q qs)
    have hqnotseen : K2.fnv1a_hash q.1 ∉ seen := by
      intro hmem
      have hdisj := (List.nodup_append.mp (by simpa using hnd)).2.2
      exact hdisj hmem (List.mem_cons_self _ _)
    have hnotin : ∀ i, (buckets.getD i ⟨0, 0⟩).hash ≠ K2.fnv1a_hash q.1 := by
      intro i
      by_cases hz : (buckets.getD i ⟨0, 0⟩).hash = 0
      · rw [hz]
        exact fun hcontra => hq0 hcontra.symm
      · intro hcontra
        exact hqnotseen (hcontra ▸ hin i hz)
    simp only [List.foldl_cons]
    simp only [hmax] at ih ⊢
    rcases List.mem_cons.mp hp with hpq | hpq
    · subst hpq
      have hidx : K2.fnv1a_hash p.1 % n < n := Nat.mod_lt _ hpos
      have hwindow :
          ∃ k < n,
            (buckets.getD ((K2.fnv1a_hash p.1 % n + k) % n) ⟨0, 0⟩).hash = 0 := by
        have hcfill : K2.filledCount buckets < n := by
          have := htot
          simp only [List.length_cons] at this
          omega
        obtain ⟨j, hj, hj0⟩ := exists_empty_slot n buckets hlen hcfill
        refine ⟨(j + n - K2.fnv1a_hash p.1 % n) % n, Nat.mod_lt _ hpos, ?_⟩
        rw [probe_window_covers n (K2.fnv1a_hash p.1 % n) j hidx hj]
        exact hj0
      have hfirst :
          K2.probeLookup
            (K2.probeInsert buckets n (K2.fnv1a_hash p.1 % n) n
              (K2.fnv1a_hash p.1) p.2.as_u8)
            n (K2.fnv1a_hash p.1 % n) n (K2.fnv1a_hash p.1) =
            K2.Target.from_u8 p.2.as_u8 :=
        probeInsert_lookup n hpos (K2.fnv1a_hash p.1) p.2.as_u8
          (hnz p (List.mem_cons_self p qs)) n (K2.fnv1a_hash p.1 % n) buckets
          hlen hidx hwindow hnotin
      rw [from_u8_as_u8] at hfirst
      have hext :
          K2.TableExtends
            (K2.probeInsert buckets n (K2.fnv1a_hash p.1 % n) n
              (K2.fnv1a_hash p.1) p.2.as_u8)
            (qs.foldl
              (fun b q =>
                K2.probeInsert b n (K2.fnv1a_hash q.1 % n) n
                  (K2.fnv1a_hash q.1) q.2.as_u8)
              (K2.probeInsert buckets n (K2.fnv1a_hash p.1 % n) n
                (K2.fnv1a_hash p.1) p.2.as_u8)) := by
        have hx := foldl_insert_extends n qs
          (K2.probeInsert buckets n (K2.fnv1a_hash p.1 % n) n
            (K2.fnv1a_hash p.1) p.2.as_u8)
        simpa only [hmax] using hx
      exact probeLookup_mono hext n (K2.fnv1a_hash p.1) n
        (K2.fnv1a_hash p.1 % n) p.2 hfirst
    · set b1 :=
        K2.probeInsert buckets n (K2.fnv1a_hash q.1 % n) n
          (K2.fnv1a_hash q.1) q.2.as_u8 with hb1
      have hlen1 : b1.length = n := by
        rw [hb1, length_probeInsert, hlen]
      have hin1 : K2.HashesIn b1 (seen ++ [K2.fnv1a_hash q.1]) := by
        intro i hi
        have hcons :=
          hashesIn_probeInsert buckets n (K2.fnv1a_hash q.1) q.2.as_u8 seen
            hin n (K2.fnv1a_hash q.1 % n) i hi
        rcases List.mem_cons.mp hcons with he | he
        · rw [he]
          exact List.mem_append_right _ (List.mem_singleton_self _)
        · exact List.mem_append_left _ he
      have hcnt1 : K2.filledCount b1 ≤ (seen ++ [K2.fnv1a_hash q.1]).length := by
        rw [hb1]
        have := filledCount_probeInsert_le buckets n (K2.fnv1a_hash q.1)
          q.2.as_u8 n (K2.fnv1a_hash q.1 % n)
        simp only [List.length_append, List.length_cons, List.length_nil]
        omega
      have htot1 :
          (seen ++ [K2.fnv1a_hash q.1]).length + qs.length ≤ n := by
        simp only [List.length_append, List.length_cons, List.length_nil]
        simp only [List.length_cons] at htot
        omega
      have hnd1 :
          ((seen ++ [K2.fnv1a_hash q.1]) ++
            qs.map (fun p => K2.fnv1a_hash p.1)).Nodup := by
        rw [List.append_assoc]
        simpa using hnd
      have hnz1 : ∀ p ∈ qs, K2.fnv1a_hash p.1 ≠ 0 :=
        fun p hp' => hnz p (List.mem_cons_of_mem q hp')
      exact ih b1 (seen ++ [K2.fnv1a_hash q.1]) hlen1 hin1 hcnt1 htot1 hnd1
        hnz1 p hpq

/-- C2 amended: the exact-domain round trip holds for every rule set whose
exact domains are lowercase byte strings with pairwise distinct and nonzero
FNV-1a hashes, as many entries as fit the bucket table (the writer always
chooses a bucket count of at least `max(16, count/0.7)`, so both side
conditions on `n` hold for writer-chosen sizes).  The original claim, which
assumes only distinct strings, fails on hash collisions — see the
counterexample. -/
theorem c2_exact_roundtrip_amended (n : Nat) (rules : K2.IntermediateRules)
    (hpos : 0 < n) (hlen : rules.exact_domains.length ≤ n)
    (hlower : ∀ p ∈ rules.exact_domains, K2.lowerBytes p.1 = p.1)
    (hnz : ∀ p ∈ rules.exact_domains, K2.fnv1a_hash p.1 ≠ 0)
    (hnd : (rules.exact_domains.map (fun p => K2.fnv1a_hash p.1)).Nodup) :
    ∀ p ∈ rules.exact_domains,
      (K2.BinaryRuleWriter.write n rules).match_domain p.1 = some p.2 := by
  intro p hp
  have hexact :
      (K2.BinaryRuleWriter.write n rules).lookup_exact_domain
        (K2.fnv1a_hash p.1) = some p.2 := by
    have hdc : (K2.BinaryRuleWriter.write n rules).domain_count ≠ 0 := by
      show rules.exact_domains.length + rules.suffix_domains.length ≠ 0
      have : 0 < rules.exact_domains.length := List.length_pos_of_mem hp
      omega
    have hbl :
        (K2.BinaryRuleWriter.write n rules).exact_buckets.length = n :=
      length_buildExactTable n rules.exact_domains
    simp only [K2.BinaryRuleReader.lookup_exact_domain, if_neg hdc, hbl,
      if_neg (show ¬ n = 0 by omega)]
    exact buildLookup_aux n hpos rules.exact_domains
      (List.replicate n ⟨0, 0⟩) [] (List.length_replicate n _)
      (fun i hi => absurd (congrArg K2.DomainExactEntry.hash
        (getD_replicate n i ⟨0, 0⟩)) hi)
      (by simp [filledCount_replicate])
      (by simpa using hlen)
      (by simpa using hnd)
      hnz p hp
  rw [K2.BinaryRuleReader.match_domain]
  simp only [hlower p hp, hexact]

/-- Witness for C2 amended: two single-letter domains with distinct nonzero
hashes round-trip through a 16-bucket table. -/
theorem c2_exact_roundtrip_amended_witness :
    (0 < 16 ∧
      (K2.IntermediateRules.mk [([97], K2.Target.Direct),
        ([98], K2.Target.Proxy)] [] [] [] []).exact_domains.length ≤ 16) ∧
    (K2.BinaryRuleWriter.write 16
      (K2.IntermediateRules.mk [([97], K2.Target.Direct),
        ([98], K2.Target.Proxy)] [] [] [] [])).match_domain [97] =
      some K2.Target.Direct ∧
    (K2.BinaryRuleWriter.write 16
      (K2.IntermediateRules.mk [([97], K2.Target.Direct),
        ([98], K2.Target.Proxy)] [] [] [] [])).match_domain [98] =
      some K2.Target.Proxy := by
  refine ⟨⟨by decide, by decide⟩, ?_, ?_⟩
  · exact c2_exact_roundtrip_amended 16
      (K2.IntermediateRules.mk [([97], K2.Target.Direct),
        ([98], K2.Target.Proxy)] [] [] [] [])
      (by decide) (by decide) (by decide) (by decide) (by decide)
      ([97], K2.Target.Direct) (by decide)
  · exact c2_exact_roundtrip_amended 16
      (K2.IntermediateRules.mk [([97], K2.Target.Direct),
        ([98], K2.Target.Proxy)] [] [] [] [])
      (by decide) (by decide) (by decide) (by decide) (by decide)
      ([98], K2.Target.Proxy) (by decide)

/-! Machinery for the C2 counterexample: distinct lowercase ASCII strings
with colliding FNV-1a hashes exist (pigeonhole over the 2^64 hash values),
and on a collision the open-addressing table returns the first rule's target
for both domains (or finds neither, when the common hash is the empty-slot
sentinel 0). -/

/-- Fourteen lowercase letters, one per coordinate. -/
def lowerAsciiEncode (a : Fin 14 → Fin 26) : List Nat :=
  List.ofFn (fun i => 97 + (a i).val)

theorem lowerAsciiEncode_injective : Function.Injective lowerAsciiEncode := by
  intro a b h
  rw [lowerAsciiEncode, lowerAsciiEncode, List.ofFn_inj] at h
  funext i
  have := congrFun h i
  exact Fin.ext (by omega)

theorem lowerAsciiEncode_bounds (a : Fin 14 → Fin 26) :
    ∀ b ∈ lowerAsciiEncode a, 97 ≤ b ∧ b ≤ 122 := by
  intro b hb
  rw [lowerAsciiEncode, List.mem_ofFn] at hb
  obtain ⟨i, rfl⟩ := hb
  have := (a i).isLt
  show 97 ≤ 97 + (a i).val ∧ 97 + (a i).val ≤ 122
  omega

theorem fnv1a_hash_lt (l : List Nat) : K2.fnv1a_hash l < 2 ^ 64 := by
  rw [K2.fnv1a_hash]
  have haux :
      ∀ (l : List Nat) (init : Nat), init < 2 ^ 64 →
        l.foldl (fun h b => ((h ^^^ b) * 1099511628211) % 2 ^ 64) init <
          2 ^ 64 := by
    intro l
    induction l with
    | nil => intro init h0; exact h0
    | cons b bs ih =>
      intro init _
      exact ih _ (Nat.mod_lt _ (by norm_num))
  exact haux l _ (by norm_num)

theorem exists_fnv1a_collision :
    ∃ d1 d2 : List Nat,
      d1 ≠ d2 ∧
      (∀ b ∈ d1, 97 ≤ b ∧ b ≤ 122) ∧
      (∀ b ∈ d2, 97 ≤ b ∧ b ≤ 122) ∧
      K2.fnv1a_hash d1 = K2.fnv1a_hash d2 := by
  have hcard :
      Fintype.card (Fin (2 ^ 64)) < Fintype.card (Fin 14 → Fin 26) := by
    rw [Fintype.card_fun, Fintype.card_fin, Fintype.card_fin,
      Fintype.card_fin]
    norm_num
  obtain ⟨a, b, hab, hfab⟩ :=
    Fintype.exists_ne_map_eq_of_card_lt
      (fun a => (⟨K2.fnv1a_hash (lowerAsciiEncode a),
        fnv1a_hash_lt _⟩ : Fin (2 ^ 64)))
      hcard
  exact ⟨lowerAsciiEncode a, lowerAsciiEncode b,
    fun hc => hab (lowerAsciiEncode_injective hc),
    lowerAsciiEncode_bounds a, lowerAsciiEncode_bounds b,
    congrArg Fin.val hfab⟩

theorem lowerBytes_eq_self_of_lower (l : List Nat)
    (h : ∀ b ∈ l, 97 ≤ b) : K2.lowerBytes l = l := by
  induction l with
  | nil => rfl
  | cons x xs ih =>
    have hx := h x (List.mem_cons_self x xs)
    simp only [K2.lowerBytes, List.map_cons, List.map] at ih ⊢
    rw [show K2.lowerByte x = x from by rw [K2.lowerByte, if_neg (by omega)]]
    rw [ih fun b hb => h b (List.mem_cons_of_mem x hb)]

theorem suffixCandidates_eq_nil (l : List Nat) (h : ∀ b ∈ l, 97 ≤ b) :
    K2.suffixCandidates l = [] := by
  induction l with
  | nil => rfl
  | cons x xs ih =>
    have hx := h x (List.mem_cons_self x xs)
    rw [K2.suffixCandidates, if_neg (by omega)]
    exact ih fun b hb => h b (List.mem_cons_of_mem x hb)

theorem collision_probe_lookup (n : Nat) (hn : 2 ≤ n) (h t1 t2 : Nat)
    (hh0 : h ≠ 0) :
    K2.probeLookup
      (K2.probeInsert
        (K2.probeInsert (List.replicate n ⟨0, 0⟩) n (h % n) n h t1)
        n (h % n) n h t2)
      n (h % n) n h = K2.Target.from_u8 t1 := by
  obtain ⟨m, rfl⟩ : ∃ m, n = m + 2 := ⟨n - 2, by omega⟩
  have hpos : 0 < m + 2 := by omega
  have hidx0 : h % (m + 2) < m + 2 := Nat.mod_lt _ hpos
  have e1 :
      K2.probeInsert (List.replicate (m + 2) ⟨0, 0⟩) (m + 2) (h % (m + 2))
        (m + 2) h t1 =
        (List.replicate (m + 2) ⟨0, 0⟩).set (h % (m + 2)) ⟨h, t1⟩ :=
    probeInsert_step_empty (List.replicate (m + 2) ⟨0, 0⟩) (m + 2)
      (h % (m + 2)) (m + 1) h t1 (by rw [getD_replicate])
  rw [e1]
  have hget1 :
      ((List.replicate (m + 2) ⟨0, 0⟩).set (h % (m + 2))
        (⟨h, t1⟩ : K2.DomainExactEntry)).getD (h % (m + 2)) ⟨0, 0⟩ =
        ⟨h, t1⟩ :=
    getD_set_self (by rw [List.length_replicate]; exact hidx0) _ _
  have hne01 : h % (m + 2) ≠ (h % (m + 2) + 1) % (m + 2) := by
    by_cases hcase : h % (m + 2) + 1 < m + 2
    · rw [Nat.mod_eq_of_lt hcase]
      omega
    · have hco : h % (m + 2) = m + 1 := by omega
      rw [hco]
      have hz : (m + 1 + 1) % (m + 2) = 0 := Nat.mod_self (m + 2)
      rw [hz]
      omega
  have hget1' :
      ((List.replicate (m + 2) ⟨0, 0⟩).set (h % (m + 2))
        (⟨h, t1⟩ : K2.DomainExactEntry)).getD ((h % (m + 2) + 1) % (m + 2))
        ⟨0, 0⟩ = ⟨0, 0⟩ := by
    rw [getD_set_ne hne01, getD_replicate]
  have e2 :
      K2.probeInsert
        ((List.replicate (m + 2) ⟨0, 0⟩).set (h % (m + 2)) ⟨h, t1⟩)
        (m + 2) (h % (m + 2)) (m + 2) h t2 =
        ((List.replicate (m + 2) ⟨0, 0⟩).set (h % (m + 2)) ⟨h, t1⟩).set
          ((h % (m + 2) + 1) % (m + 2)) ⟨h, t2⟩ := by
    have s1 := probeInsert_step_occupied
      ((List.replicate (m + 2) ⟨0, 0⟩).set (h % (m + 2)) ⟨h, t1⟩)
      (m + 2) (h % (m + 2)) (m + 1) h t2 (by rw [hget1]; exact hh0)
    have s2 := probeInsert_step_empty
      ((List.replicate (m + 2) ⟨0, 0⟩).set (h % (m + 2)) ⟨h, t1⟩)
      (m + 2) ((h % (m + 2) + 1) % (m + 2)) m h t2 (by rw [hget1'])
    exact s1.trans s2
  rw [e2]
  have hget2 :
      (((List.replicate (m + 2) ⟨0, 0⟩).set (h % (m + 2))
        (⟨h, t1⟩ : K2.DomainExactEntry)).set ((h % (m + 2) + 1) % (m + 2))
        (⟨h, t2⟩ : K2.DomainExactEntry)).getD (h % (m + 2)) ⟨0, 0⟩ =
        ⟨h, t1⟩ := by
    rw [getD_set_ne (Ne.symm hne01), hget1]
  rw [probeLookup_step_hit _ (m + 2) (h % (m + 2)) (m + 1) h
    (by rw [hget2]; exact hh0) (by rw [hget2]), hget2]

theorem collision_probe_lookup_zero (n : Nat) (hn : 2 ≤ n) (t1 t2 : Nat) :
    K2.probeLookup
      (K2.probeInsert
        (K2.probeInsert (List.replicate n ⟨0, 0⟩) n (0 % n) n 0 t1)
        n (0 % n) n 0 t2)
      n (0 % n) n 0 = none := by
  obtain ⟨m, rfl⟩ : ∃ m, n = m + 2 := ⟨n - 2, by omega⟩
  have hz : 0 % (m + 2) = 0 := Nat.zero_mod _
  rw [hz]
  have hlt : (0 : Nat) < (List.replicate (m + 2)
      (⟨0, 0⟩ : K2.DomainExactEntry)).length := by
    rw [List.length_replicate]
    omega
  have e1 :
      K2.probeInsert (List.replicate (m + 2) ⟨0, 0⟩) (m + 2) 0 (m + 2) 0 t1 =
        (List.replicate (m + 2) ⟨0, 0⟩).set 0 ⟨0, t1⟩ :=
    probeInsert_step_empty _ (m + 2) 0 (m + 1) 0 t1 (by rw [getD_replicate])
  rw [e1]
  have hget1 :
      ((List.replicate (m + 2) ⟨0, 0⟩).set 0
        (⟨0, t1⟩ : K2.DomainExactEntry)).getD 0 ⟨0, 0⟩ = ⟨0, t1⟩ :=
    getD_set_self hlt _ _
  have e2 :
      K2.probeInsert
        ((List.replicate (m + 2) ⟨0, 0⟩).set 0 ⟨0, t1⟩) (m + 2) 0 (m + 2) 0
        t2 =
        ((List.replicate (m + 2) ⟨0, 0⟩).set 0 ⟨0, t1⟩).set 0 ⟨0, t2⟩ :=
    probeInsert_step_empty _ (m + 2) 0 (m + 1) 0 t2 (by rw [hget1])
  rw [e2]
  have hget2 :
      (((List.replicate (m + 2) ⟨0, 0⟩).set 0
        (⟨0, t1⟩ : K2.DomainExactEntry)).set 0
        (⟨0, t2⟩ : K2.DomainExactEntry)).getD 0 ⟨0, 0⟩ = ⟨0, t2⟩ :=
    getD_set_self (by rw [List.length_set]; exact hlt) _ _
  exact probeLookup_step_empty _ (m + 2) 0 (m + 1) 0 (by rw [hget2])

theorem lookup_exact_domain_probe (r : K2.BinaryRuleReader) (h n : Nat)
    (hdc : r.domain_count ≠ 0) (hbl : r.exact_buckets.length = n)
    (hn : n ≠ 0) :
    r.lookup_exact_domain h =
      K2.probeLookup r.exact_buckets n (h % n) n h := by
  simp only [K2.BinaryRuleReader.lookup_exact_domain, if_neg hdc, hbl,
    if_neg hn]

/-- C2 counterexample: the round-trip claim quantified over all rule sets
with distinct lowercase ASCII exact domains is false.  By pigeonhole over
the 2^64 hash values there exist two distinct fourteen-letter lowercase
strings with the same FNV-1a hash; writing both as exact rules with
different targets, the reader — which compares hashes only on the exact
path — returns the first rule's target for the second domain (or, when the
common hash is the empty-slot sentinel 0, finds neither). -/
theorem c2_distinct_strings_counterexample :
    ∃ d1 d2 : List Nat,
      d1 ≠ d2 ∧
      (∀ b ∈ d1, 97 ≤ b ∧ b ≤ 122) ∧
      (∀ b ∈ d2, 97 ≤ b ∧ b ≤ 122) ∧
      ¬ (∀ p ∈ [(d1, K2.Target.Direct), (d2, K2.Target.Proxy)],
          (K2.BinaryRuleWriter.write 16
            (K2.IntermediateRules.mk
              [(d1, K2.Target.Direct), (d2, K2.Target.Proxy)] [] [] []
              [])).match_domain p.1 = some p.2) := by
  obtain ⟨d1, d2, hne, hb1, hb2, hfe⟩ := exists_fnv1a_collision
  refine ⟨d1, d2, hne, hb1, hb2, ?_⟩
  intro hall
  set W := K2.BinaryRuleWriter.write 16
    (K2.IntermediateRules.mk
      [(d1, K2.Target.Direct), (d2, K2.Target.Proxy)] [] [] [] []) with hW
  have hlow1 : K2.lowerBytes d1 = d1 :=
    lowerBytes_eq_self_of_lower d1 (fun b hb => (hb1 b hb).1)
  have hlow2 : K2.lowerBytes d2 = d2 :=
    lowerBytes_eq_self_of_lower d2 (fun b hb => (hb2 b hb).1)
  have hbuck :
      W.exact_buckets =
        K2.probeInsert
          (K2.probeInsert (List.replicate 16 ⟨0, 0⟩) 16
            (K2.fnv1a_hash d1 % 16) 16 (K2.fnv1a_hash d1) 0)
          16 (K2.fnv1a_hash d2 % 16) 16 (K2.fnv1a_hash d2) 1 := by
    rw [hW]
    rfl
  rw [← hfe] at hbuck
  have hdc : W.domain_count ≠ 0 := by
    have h2 : W.domain_count = 2 := by
      rw [hW]
      rfl
    omega
  have hblen : W.exact_buckets.length = 16 := by
    rw [hbuck, length_probeInsert, length_probeInsert, List.length_replicate]
  by_cases hh0 : K2.fnv1a_hash d1 = 0
  · have hlk : W.lookup_exact_domain (K2.fnv1a_hash d1) = none := by
      rw [lookup_exact_domain_probe W (K2.fnv1a_hash d1) 16 hdc hblen
        (by decide), hbuck, hh0]
      exact collision_probe_lookup_zero 16 (by decide) 0 1
    have hmd1 : W.match_domain d1 = none := by
      simp only [K2.BinaryRuleReader.match_domain, hlow1, hlk,
        suffixCandidates_eq_nil d1 (fun b hb => (hb1 b hb).1)]
      rfl
    have hthis : W.match_domain d1 = some K2.Target.Direct :=
      hall (d1, K2.Target.Direct) (List.mem_cons_self _ _)
    rw [hmd1] at hthis
    exact Option.noConfusion hthis
  · have hlk : W.lookup_exact_domain (K2.fnv1a_hash d1) =
        K2.Target.from_u8 0 := by
      rw [lookup_exact_domain_probe W (K2.fnv1a_hash d1) 16 hdc hblen
        (by decide), hbuck]
      exact collision_probe_lookup 16 (by decide) (K2.fnv1a_hash d1) 0 1 hh0
    have hmd2 : W.match_domain d2 = some K2.Target.Direct := by
      simp only [K2.BinaryRuleReader.match_domain, hlow2]
      rw [← hfe, hlk]
      rfl
    have hthis : W.match_domain d2 = some K2.Target.Proxy :=
      hall (d2, K2.Target.Proxy)
        (List.mem_cons_of_mem _ (List.mem_cons_self _ _))
    rw [hmd2] at hthis
    exact absurd hthis (by decide)
